import Mathlib

/-!
Verification of the tumble rolling-log engine (path codec, rotator, mill,
muster replay reader) against its natural-language specification.

Go strings are modelled as lists of characters (all paths involved are
ASCII, where Go's byte indexing and Lean's list indexing agree); byte
streams are lists of naturals; Go's `int64` is modelled as `Int` with the
explicit 64-bit range checks that the source performs.
-/

namespace Tumble

/-- Go strings (paths and file names), modelled as lists of characters. -/
abbrev GoStr := List Char

/-- The `.gz` suffix appended to compressed archives (`compressSuffix`). -/
def compressSuffix : GoStr := ['.', 'g', 'z']

/-- The character for a single decimal digit `n < 10`. -/
def digitChar (n : Nat) : Char := Char.ofNat (48 + n)

/-- Decimal digits of a natural number, most significant first, with
explicit fuel (the fuel `n+1` always suffices; see `natDigits_eq`).
This models the digit output of Go's `fmt.Sprintf("%d", ...)`. -/
def natDigitsAux : Nat → Nat → GoStr
  | 0, _ => []
  | fuel + 1, n =>
    if n < 10 then [digitChar n]
    else natDigitsAux fuel (n / 10) ++ [digitChar (n % 10)]

/-- Decimal representation of a natural number, most significant digit first. -/
def natDigits (n : Nat) : GoStr := natDigitsAux (n + 1) n

/-- Decimal representation of an `int64` as printed by Go's `%d` verb:
a minus sign for negative values, then the digits of the absolute value,
with no padding. -/
def intDec (t : Int) : GoStr :=
  if t < 0 then '-' :: natDigits t.natAbs else natDigits t.natAbs

/-- Numeric value of a decimal digit character, `none` for non-digits. -/
def digitVal (c : Char) : Option Nat :=
  if '0' ≤ c ∧ c ≤ '9' then some (c.toNat - 48) else none

/-- Left-to-right accumulation of a run of decimal digits; fails on the
first non-digit character. -/
def parseDigitsAux : GoStr → Nat → Option Nat
  | [], acc => some acc
  | c :: rest, acc =>
    match digitVal c with
    | some d => parseDigitsAux rest (acc * 10 + d)
    | none => none

/-- Parse a non-empty all-digit string to its value (Go digit-run parsing:
leading zeros are accepted). -/
def parseDigits (s : GoStr) : Option Nat :=
  match s with
  | [] => none
  | _ :: _ => parseDigitsAux s 0

/-- Largest `int64` value. -/
def int64Max : Int := 9223372036854775807

/-- Smallest `int64` value. -/
def int64Min : Int := -9223372036854775808

/-- Model of Go's `strconv.ParseInt(s, 10, 64)`: an optional leading `+`
or `-` sign, then one or more decimal digits (leading zeros allowed),
with the value required to fit in a signed 64-bit integer (out-of-range
values make Go return `ErrRange`, which every caller in the source treats
as failure, hence `none` here). -/
def goParseInt64 (s : GoStr) : Option Int :=
  let core : GoStr → Bool → Option Int := fun ds neg =>
    match parseDigits ds with
    | none => none
    | some n =>
      let v : Int := if neg then -(n : Int) else (n : Int)
      if int64Min ≤ v ∧ v ≤ int64Max then some v else none
  match s with
  | [] => none
  | c :: rest =>
    if c = '+' then core rest false
    else if c = '-' then core rest true
    else core (c :: rest) false

/-- The decomposed base path `P = dir ++ stem ++ ext` of a `Muster` or
`Logger`: the source's accessors `dirpath` (directory with trailing
separator, possibly empty), `namePrefix` (`Filepath` between the
directory and the extension) and `nameExt` (`filepath.Ext`, the final
dot-extension, possibly empty).  The source recomputes the three parts
from `Filepath` on every call; this model carries the decomposition
itself, together with the spec invariant `P = dir(P) + stem(P) + ext(P)`
relating them. -/
structure PathParts where
  dir : GoStr
  stem : GoStr
  ext : GoStr

/-- `Muster.timestampToFpath`: the archive path
`dirpath ++ namePrefix ++ "-" ++ %d(ts) ++ nameExt ++ ".gz"`. -/
def timestampToFpath (p : PathParts) (ts : Int) : GoStr :=
  p.dir ++ p.stem ++ ['-'] ++ intDec ts ++ p.ext ++ compressSuffix

/-- `Muster.timestampLength`: the fixed width assumed for the decimal
timestamp inside an archive name. -/
def timestampLength : Nat := 10

/-- `Muster.parseTimestamp`: require exactly `timestampLength` characters,
then parse them with `strconv.ParseInt(s, 10, 64)`. -/
def parseTimestamp (s : GoStr) : Option Int :=
  if s.length = timestampLength then goParseInt64 s else none

/-- `Muster.fpathToTimestamp`: accept `fpath` only if its length matches
`|dir| + |stem| + 1 + 10 + |ext| + 3` exactly, the middle region starts
with a hyphen, the following ten characters parse as a timestamp, and
re-encoding that timestamp reproduces `fpath` exactly. -/
def fpathToTimestamp (p : PathParts) (fpath : GoStr) : Option Int :=
  if fpath.length
      = p.dir.length + p.stem.length + 1 + timestampLength + p.ext.length
        + compressSuffix.length then
    let middle := (fpath.drop (p.dir.length + p.stem.length)).take
        (fpath.length - p.ext.length - compressSuffix.length
          - (p.dir.length + p.stem.length))
    if middle.take 1 = ['-'] then
      (parseTimestamp (middle.drop 1)).bind fun ts =>
        if fpath = timestampToFpath p ts then some ts else none
    else none
  else none

/-! Basic facts about decimal printing and parsing. -/

theorem natDigitsAux_congr : ∀ f1 : Nat, ∀ f2 n : Nat, n < f1 → n < f2 →
    natDigitsAux f1 n = natDigitsAux f2 n := by
  intro f1
  induction f1 with
  | zero => intro f2 n h1 _; omega
  | succ f1 ih =>
    intro f2 n h1 h2
    match f2 with
    | 0 => omega
    | f2 + 1 =>
      by_cases h : n < 10
      · simp [natDigitsAux, h]
      · have hd : n / 10 < n := Nat.div_lt_self (by omega) (by omega)
        simp only [natDigitsAux, if_neg h]
        rw [ih f2 (n / 10) (by omega) (by omega)]

theorem natDigits_eq (n : Nat) :
    natDigits n
      = if n < 10 then [digitChar n]
        else natDigits (n / 10) ++ [digitChar (n % 10)] := by
  have e1 : natDigitsAux (n + 1) n
      = if n < 10 then [digitChar n]
        else natDigitsAux n (n / 10) ++ [digitChar (n % 10)] := rfl
  by_cases h : n < 10
  · simp [natDigits, natDigitsAux, h]
  · have hd : n / 10 < n := Nat.div_lt_self (by omega) (by omega)
    calc natDigits n = natDigitsAux (n + 1) n := rfl
      _ = natDigitsAux n (n / 10) ++ [digitChar (n % 10)] := by
          rw [e1, if_neg h]
      _ = natDigitsAux (n / 10 + 1) (n / 10) ++ [digitChar (n % 10)] := by
          rw [natDigitsAux_congr n (n / 10 + 1) (n / 10) (by omega) (by omega)]
      _ = natDigits (n / 10) ++ [digitChar (n % 10)] := rfl
      _ = _ := by rw [if_neg h]

theorem natDigits_ne_nil (n : Nat) : natDigits n ≠ [] := by
  rw [natDigits_eq]
  by_cases h : n < 10 <;> simp [h]

theorem natDigits_head (n : Nat) :
    ∃ d rest, d < 10 ∧ natDigits n = digitChar d :: rest := by
  induction n using Nat.strong_induction_on with
  | _ n ih =>
    rw [natDigits_eq]
    by_cases h : n < 10
    · exact ⟨n, [], h, by simp [h]⟩
    · have hd : n / 10 < n := Nat.div_lt_self (by omega) (by omega)
      obtain ⟨d, rest, hd10, hrest⟩ := ih (n / 10) hd
      exact ⟨d, rest ++ [digitChar (n % 10)], hd10, by simp [h, hrest]⟩

theorem digitVal_digitChar {d : Nat} (h : d < 10) :
    digitVal (digitChar d) = some d := by
  interval_cases d <;> rfl

theorem digitChar_ne_plus {d : Nat} (h : d < 10) : digitChar d ≠ '+' := by
  interval_cases d <;> decide

theorem digitChar_ne_minus {d : Nat} (h : d < 10) : digitChar d ≠ '-' := by
  interval_cases d <;> decide

theorem parseDigitsAux_append : ∀ s t : GoStr, ∀ acc : Nat,
    parseDigitsAux (s ++ t) acc
      = match parseDigitsAux s acc with
        | some v => parseDigitsAux t v
        | none => none := by
  intro s
  induction s with
  | nil => intro t acc; simp [parseDigitsAux]
  | cons c s ih =>
    intro t acc
    simp only [List.cons_append, parseDigitsAux]
    match digitVal c with
    | some d => simp [ih]
    | none => simp

theorem parseDigitsAux_natDigits (n : Nat) : ∀ acc : Nat,
    parseDigitsAux (natDigits n) acc
      = some (acc * 10 ^ (natDigits n).length + n) := by
  induction n using Nat.strong_induction_on with
  | _ n ih =>
    intro acc
    rw [natDigits_eq]
    by_cases h : n < 10
    · simp [h, parseDigitsAux, digitVal_digitChar h]
    · have hd : n / 10 < n := Nat.div_lt_self (by omega) (by omega)
      simp only [if_neg h, parseDigitsAux_append, ih (n / 10) hd acc]
      simp only [parseDigitsAux, digitVal_digitChar (Nat.mod_lt n (by omega))]
      have : (acc * 10 ^ (natDigits (n / 10)).length + n / 10) * 10 + n % 10
          = acc * 10 ^ ((natDigits (n / 10)).length + 1) + n := by
        rw [pow_succ]; ring_nf; omega
      simp [this, List.length_append, pow_succ]

theorem parseDigits_natDigits (n : Nat) : parseDigits (natDigits n) = some n := by
  obtain ⟨d, rest, _, hrest⟩ := natDigits_head n
  rw [hrest, parseDigits]
  rw [← hrest, parseDigitsAux_natDigits n 0]
  simp

theorem goParseInt64_natDigits {n : Nat} (h : (n : Int) ≤ int64Max) :
    goParseInt64 (natDigits n) = some (n : Int) := by
  obtain ⟨d, rest, hd10, hrest⟩ := natDigits_head n
  rw [hrest]
  simp only [goParseInt64, if_neg (digitChar_ne_plus hd10),
    if_neg (digitChar_ne_minus hd10)]
  rw [← hrest, parseDigits_natDigits]
  have h0 : int64Min ≤ (n : Int) := by
    simp only [int64Min]; omega
  simp [h0, h]

theorem goParseInt64_neg_natDigits {n : Nat} (h : int64Min ≤ -(n : Int)) :
    goParseInt64 ('-' :: natDigits n) = some (-(n : Int)) := by
  simp only [goParseInt64, if_neg (by decide : ¬('-' : Char) = '+'), if_pos rfl]
  rw [parseDigits_natDigits]
  have h1 : -(n : Int) ≤ int64Max := by
    simp only [int64Max]; omega
  simp [h, h1]

theorem natDigits_length_le : ∀ k n : Nat, n < 10 ^ (k + 1) →
    (natDigits n).length ≤ k + 1 := by
  intro k
  induction k with
  | zero =>
    intro n h
    rw [natDigits_eq, if_pos (by omega : n < 10)]
    simp
  | succ k ih =>
    intro n h
    rw [natDigits_eq]
    by_cases h10 : n < 10
    · simp [h10]
    · have : n / 10 < 10 ^ (k + 1) := by
        rw [Nat.div_lt_iff_lt_mul (by omega : 0 < 10)]
        calc n < 10 ^ (k + 2) := h
          _ = 10 ^ (k + 1) * 10 := by ring
      simpa [h10] using ih (n / 10) this

theorem natDigits_length_ge : ∀ k n : Nat, 10 ^ k ≤ n →
    k + 1 ≤ (natDigits n).length := by
  intro k
  induction k with
  | zero =>
    intro n _
    have := natDigits_ne_nil n
    cases hh : natDigits n with
    | nil => exact absurd hh this
    | cons a l => simp
  | succ k ih =>
    intro n h
    have h10 : ¬n < 10 := by
      have : 10 ≤ 10 ^ (k + 1) := by
        calc (10 : Nat) = 10 ^ 1 := (pow_one 10).symm
          _ ≤ 10 ^ (k + 1) := Nat.pow_le_pow_right (by omega) (by omega)
      omega
    rw [natDigits_eq, if_neg h10]
    have : 10 ^ k ≤ n / 10 := by
      rw [Nat.le_div_iff_mul_le (by omega : 0 < 10)]
      calc 10 ^ k * 10 = 10 ^ (k + 1) := by ring
        _ ≤ n := h
    have := ih (n / 10) this
    simp only [List.length_append, List.length_cons, List.length_nil]
    omega

theorem natDigits_length_bound {k n : Nat}
    (h : (natDigits n).length ≤ k) : n < 10 ^ k := by
  by_contra hc
  have := natDigits_length_ge k n (by omega)
  omega

theorem natDigits_length_ten {n : Nat} (h1 : 10 ^ 9 ≤ n) (h2 : n < 10 ^ 10) :
    (natDigits n).length = 10 :=
  le_antisymm (natDigits_length_le 9 n h2) (natDigits_length_ge 9 n h1)

/-! Round-trip and characterization of the archive-path codec. -/

theorem intDec_nonneg {ts : Int} (h : 0 ≤ ts) : intDec ts = natDigits ts.natAbs := by
  simp [intDec, not_lt.mpr h]

theorem intDec_neg {ts : Int} (h : ts < 0) : intDec ts = '-' :: natDigits ts.natAbs := by
  simp [intDec, h]

theorem timestampToFpath_assoc (p : PathParts) (ts : Int) :
    timestampToFpath p ts
      = (p.dir ++ p.stem)
        ++ ('-' :: (intDec ts ++ (p.ext ++ compressSuffix))) := by
  simp [timestampToFpath]

theorem timestampToFpath_length (p : PathParts) (ts : Int) :
    (timestampToFpath p ts).length
      = p.dir.length + p.stem.length + 1 + (intDec ts).length + p.ext.length
        + compressSuffix.length := by
  simp [timestampToFpath]
  omega

/-- If the printed timestamp occupies exactly `timestampLength` characters,
`fpathToTimestamp` inverts `timestampToFpath`. -/
theorem fpathToTimestamp_encode (p : PathParts) (ts : Int)
    (hD : (intDec ts).length = timestampLength) :
    fpathToTimestamp p (timestampToFpath p ts) = some ts := by
  have hsuf : compressSuffix.length = 3 := rfl
  have hflen : (timestampToFpath p ts).length
      = p.dir.length + p.stem.length + 1 + timestampLength + p.ext.length
        + compressSuffix.length := by
    rw [timestampToFpath_length, hD]
  have hamount : (timestampToFpath p ts).length - p.ext.length
      - compressSuffix.length - (p.dir.length + p.stem.length) = 11 := by
    rw [hflen]
    simp only [timestampLength, hsuf]
    omega
  have hdrop : (timestampToFpath p ts).drop (p.dir.length + p.stem.length)
      = '-' :: (intDec ts ++ (p.ext ++ compressSuffix)) := by
    rw [timestampToFpath_assoc,
      show p.dir.length + p.stem.length = (p.dir ++ p.stem).length by simp]
    exact List.drop_left _ _
  have htake : ('-' :: (intDec ts ++ (p.ext ++ compressSuffix))).take 11
      = '-' :: intDec ts := by
    rw [show (11 : Nat) = 10 + 1 from rfl, List.take_succ_cons]
    rw [show (10 : Nat) = (intDec ts).length from hD.symm]
    rw [List.take_left]
  have hparse : parseTimestamp (intDec ts) = some ts := by
    rw [parseTimestamp, if_pos hD]
    rcases le_or_lt 0 ts with hsgn | hsgn
    · rw [intDec_nonneg hsgn]
      have hlen10 : (natDigits ts.natAbs).length = 10 := by
        rw [← intDec_nonneg hsgn, hD]; rfl
      have hub : ts.natAbs < 10 ^ 10 :=
        natDigits_length_bound (le_of_eq hlen10)
      have hmax : (ts.natAbs : Int) ≤ int64Max := by
        have : (10 : Nat) ^ 10 = 10000000000 := by norm_num
        rw [this] at hub
        simp only [int64Max]
        omega
      rw [goParseInt64_natDigits hmax]
      congr 1
      omega
    · rw [intDec_neg hsgn]
      have hlen9 : (natDigits ts.natAbs).length = 9 := by
        have := intDec_neg hsgn
        have : ('-' :: natDigits ts.natAbs).length = 10 := by
          rw [← this, hD]; rfl
        simpa using this
      have hub : ts.natAbs < 10 ^ 9 :=
        natDigits_length_bound (le_of_eq hlen9)
      have hmin : int64Min ≤ -(ts.natAbs : Int) := by
        have : (10 : Nat) ^ 9 = 1000000000 := by norm_num
        rw [this] at hub
        simp only [int64Min]
        omega
      rw [goParseInt64_neg_natDigits hmin]
      congr 1
      omega
  unfold fpathToTimestamp
  rw [if_pos hflen]
  simp only [hamount, hdrop, htake]
  simp [hparse]

/-- `fpathToTimestamp` returns `ts` only on the exact re-encoding of `ts`,
and then the printed timestamp occupies exactly ten characters. -/
theorem fpathToTimestamp_sound {p : PathParts} {f : GoStr} {ts : Int}
    (h : fpathToTimestamp p f = some ts) :
    f = timestampToFpath p ts ∧ (intDec ts).length = timestampLength := by
  unfold fpathToTimestamp at h
  by_cases hlen : f.length
      = p.dir.length + p.stem.length + 1 + timestampLength + p.ext.length
        + compressSuffix.length
  · rw [if_pos hlen] at h
    set middle := (f.drop (p.dir.length + p.stem.length)).take
        (f.length - p.ext.length - compressSuffix.length
          - (p.dir.length + p.stem.length)) with hmid
    by_cases hpre : middle.take 1 = ['-']
    · rw [if_pos hpre] at h
      cases hp : parseTimestamp (middle.drop 1) with
      | none => rw [hp] at h; simp at h
      | some ts' =>
        rw [hp] at h
        simp only [Option.some_bind] at h
        by_cases heq : f = timestampToFpath p ts'
        · rw [if_pos heq] at h
          cases h
          refine ⟨heq, ?_⟩
          have := timestampToFpath_length p ts
          rw [← heq, hlen] at this
          omega
        · rw [if_neg heq] at h
          simp at h
    · rw [if_neg hpre] at h
      simp at h
  · rw [if_neg hlen] at h
    simp at h

/-- Full characterization of archive-name recognition: `fpathToTimestamp`
accepts exactly the canonical encodings of timestamps whose decimal
rendering (sign included) is ten characters wide. -/
theorem fpathToTimestamp_iff (p : PathParts) (f : GoStr) (ts : Int) :
    fpathToTimestamp p f = some ts
      ↔ f = timestampToFpath p ts ∧ (intDec ts).length = timestampLength := by
  constructor
  · exact fpathToTimestamp_sound
  · rintro ⟨rfl, hD⟩
    exact fpathToTimestamp_encode p ts hD

/-- The concrete base path `foo.log` (directory part empty, stem `foo`,
extension `.log`), used for concrete evaluations. -/
def pFoo : PathParts :=
  ⟨[], ['f', 'o', 'o'], ['.', 'l', 'o', 'g']⟩

/-- Claim C2 (amended): for every timestamp `t` whose decimal rendering is
exactly ten digits (`10^9 ≤ t < 10^10`), `fpathToTimestamp` inverts
`timestampToFpath` at `t`; for any `t`, no string other than
`timestampToFpath t` is ever parsed to `t`; and `timestampToFpath` is
injective on the ten-digit band.  (The round trip fails outside the band,
see the counterexample at `t = 0`.) -/
theorem claim_C2_codec_bijection (p : PathParts) (ts : Int)
    (h1 : (1000000000 : Int) ≤ ts) (h2 : ts < 10000000000) :
    fpathToTimestamp p (timestampToFpath p ts) = some ts
    ∧ (∀ s : GoStr, s ≠ timestampToFpath p ts → fpathToTimestamp p s ≠ some ts)
    ∧ (∀ ts2 : Int, (1000000000 : Int) ≤ ts2 → ts2 < 10000000000 →
        timestampToFpath p ts2 = timestampToFpath p ts → ts2 = ts) := by
  have hband : ∀ t : Int, (1000000000 : Int) ≤ t → t < 10000000000 →
      (intDec t).length = timestampLength := by
    intro t ha hb
    have h0 : (0 : Int) ≤ t := by omega
    rw [intDec_nonneg h0]
    have hlo : 10 ^ 9 ≤ t.natAbs := by
      have : (10 : Nat) ^ 9 = 1000000000 := by norm_num
      omega
    have hhi : t.natAbs < 10 ^ 10 := by
      have : (10 : Nat) ^ 10 = 10000000000 := by norm_num
      omega
    exact natDigits_length_ten hlo hhi
  refine ⟨fpathToTimestamp_encode p ts (hband ts h1 h2), ?_, ?_⟩
  · intro s hne hparse
    exact hne (fpathToTimestamp_sound hparse).1
  · intro ts2 ha hb heq
    have e2 : fpathToTimestamp p (timestampToFpath p ts2) = some ts2 :=
      fpathToTimestamp_encode p ts2 (hband ts2 ha hb)
    have e1 : fpathToTimestamp p (timestampToFpath p ts) = some ts :=
      fpathToTimestamp_encode p ts (hband ts h1 h2)
    rw [heq, e1] at e2
    exact (Option.some_inj.mp e2).symm

/-- Claim C2 fails as stated: at the non-negative 64-bit timestamp `t = 0`
(base path `foo.log`) the codec does not round-trip — the encoded path
`foo-0.log.gz` is eleven characters short of the fixed-width form, so
`fpathToTimestamp` rejects it. -/
theorem claim_C2_counterexample :
    fpathToTimestamp pFoo (timestampToFpath pFoo 0) = none
    ∧ (0 : Int) ≤ 0 := by
  constructor
  · rfl
  · omega

/-- Witness for `claim_C2_codec_bijection` at `p = pFoo`, `ts = 1500000000`. -/
theorem claim_C2_witness :
    fpathToTimestamp pFoo (timestampToFpath pFoo 1500000000)
        = some 1500000000
    ∧ (∀ s : GoStr, s ≠ timestampToFpath pFoo 1500000000 →
        fpathToTimestamp pFoo s ≠ some 1500000000)
    ∧ (∀ ts2 : Int, (1000000000 : Int) ≤ ts2 → ts2 < 10000000000 →
        timestampToFpath pFoo ts2 = timestampToFpath pFoo 1500000000 →
        ts2 = 1500000000) :=
  claim_C2_codec_bijection pFoo 1500000000 (by norm_num) (by norm_num)

/-- Claim C3 (amended): `fpathToTimestamp p f` succeeds with value `t`
exactly when `f` is the canonical encoding `timestampToFpath p t` and the
decimal rendering of `t` — sign included — occupies exactly ten
characters.  In particular the length, hyphen and reconstruction checks
of the claim all hold, leading zeros are never accepted, but
nine-digit negative timestamps are accepted (see the counterexample),
so the claim's "non-negative" restriction fails on the code. -/
theorem claim_C3_accept_characterization (p : PathParts) (f : GoStr) (ts : Int) :
    fpathToTimestamp p f = some ts
      ↔ f = timestampToFpath p ts ∧ (intDec ts).length = timestampLength :=
  fpathToTimestamp_iff p f ts

/-- Claim C3 fails as stated: the candidate `foo--123456789.log.gz`
(base path `foo.log`) is accepted by `fpathToTimestamp` with the negative
timestamp `-123456789` — Go's `strconv.ParseInt` accepts a leading minus
sign inside the ten-character timestamp field, and the reconstruction
check then passes because `%d` prints the same sign. -/
theorem claim_C3_counterexample :
    fpathToTimestamp pFoo
        ['f', 'o', 'o', '-', '-', '1', '2', '3', '4', '5', '6', '7', '8', '9',
          '.', 'l', 'o', 'g', '.', 'g', 'z']
      = some (-123456789)
    ∧ (-123456789 : Int) < 0 := by
  constructor
  · rfl
  · omega

/-!
Sorting by an integer key, modelling `sort.Sort(byFormatTime(...))` and
`sort.Slice` with a descending comparison.  Go's sort is unstable, but
every list the source sorts has pairwise-distinct timestamps (they come
from map keys or from distinct file names), so the descending ordering is
unique and insertion sort computes it.
-/

section Sorting

variable {α : Type} (key : α → Int)

/-- Insert into a descending-sorted list, keeping it descending. -/
def insDesc (x : α) : List α → List α
  | [] => [x]
  | y :: ys => if key y ≤ key x then x :: y :: ys else y :: insDesc x ys

/-- Sort a list into descending key order (insertion sort). -/
def sortDesc : List α → List α
  | [] => []
  | x :: xs => insDesc key x (sortDesc xs)

/-- Descending order by key. -/
def DescSorted (l : List α) : Prop :=
  l.Pairwise (fun a b => key b ≤ key a)

theorem insDesc_perm (x : α) (l : List α) :
    List.Perm (insDesc key x l) (x :: l) := by
  induction l with
  | nil => simp [insDesc]
  | cons y ys ih =>
    rw [insDesc]
    by_cases h : key y ≤ key x
    · rw [if_pos h]
    · rw [if_neg h]
      have h1 : List.Perm (y :: insDesc key x ys) (y :: x :: ys) := ih.cons y
      have h2 : List.Perm (y :: x :: ys) (x :: y :: ys) := List.Perm.swap x y ys
      exact h1.trans h2

theorem sortDesc_perm (l : List α) : List.Perm (sortDesc key l) l := by
  induction l with
  | nil => simp [sortDesc]
  | cons x xs ih =>
    have h1 : List.Perm (sortDesc key (x :: xs)) (x :: sortDesc key xs) :=
      insDesc_perm key x _
    exact h1.trans (ih.cons x)

theorem insDesc_sorted {l : List α} (hl : DescSorted key l) (x : α) :
    DescSorted key (insDesc key x l) := by
  induction l with
  | nil => simp [insDesc, DescSorted]
  | cons y ys ih =>
    rw [insDesc]
    rcases List.pairwise_cons.mp hl with ⟨hy, hys⟩
    by_cases h : key y ≤ key x
    · rw [if_pos h]
      refine List.pairwise_cons.mpr ⟨?_, hl⟩
      intro b hb
      rcases List.mem_cons.mp hb with hb | hb
      · subst hb; omega
      · have := hy b hb
        omega
    · rw [if_neg h]
      refine List.pairwise_cons.mpr ⟨?_, ih hys⟩
      intro b hb
      have hb' := (insDesc_perm key x ys).mem_iff.mp hb
      rcases List.mem_cons.mp hb' with hb' | hb'
      · subst hb'
        omega
      · exact hy b hb'

theorem sortDesc_sorted (l : List α) : DescSorted key (sortDesc key l) := by
  induction l with
  | nil => simp [sortDesc, DescSorted]
  | cons x xs ih => exact insDesc_sorted key ih x

/-- Two descending-sorted lists with pairwise-distinct keys that are
permutations of each other are equal. -/
theorem descSorted_unique : ∀ l1 l2 : List α, List.Perm l1 l2 →
    DescSorted key l1 → DescSorted key l2 → (l1.map key).Nodup → l1 = l2 := by
  intro l1
  induction l1 with
  | nil =>
    intro l2 hp _ _ _
    exact hp.nil_eq
  | cons a t1 ih =>
    intro l2 hp hs1 hs2 hnd
    match l2 with
    | [] => exact absurd hp.symm (by simp)
    | b :: t2 =>
      rcases List.pairwise_cons.mp hs1 with ⟨ha, ht1⟩
      rcases List.pairwise_cons.mp hs2 with ⟨hb, ht2⟩
      have hab : a = b := by
        by_contra hne
        have hain : a ∈ b :: t2 := hp.mem_iff.mp (by simp)
        have hbin : b ∈ a :: t1 := hp.symm.mem_iff.mp (by simp)
        have ha2 : a ∈ t2 := by
          rcases List.mem_cons.mp hain with h | h
          · exact absurd h hne
          · exact h
        have hb1 : b ∈ t1 := by
          rcases List.mem_cons.mp hbin with h | h
          · exact absurd h.symm hne
          · exact h
        have h1 : key b ≤ key a := ha b hb1
        have h2 : key a ≤ key b := hb a ha2
        have hkey : key a = key b := le_antisymm h2 h1
        rcases List.nodup_cons.mp hnd with ⟨hnotin, _⟩
        exact hnotin (by
          rw [hkey]
          exact List.mem_map_of_mem key hb1)
      subst hab
      have hpt : List.Perm t1 t2 := hp.cons_inv
      rcases List.nodup_cons.mp hnd with ⟨_, hnd'⟩
      rw [ih t2 hpt ht1 ht2 hnd']

/-- Sorting a permutation of a descending-sorted distinct-key list
recovers that list. -/
theorem sortDesc_eq_of_perm {l m : List α} (hp : List.Perm l m)
    (hm : DescSorted key m) (hnd : (m.map key).Nodup) : sortDesc key l = m := by
  refine descSorted_unique key _ _ ?_ (sortDesc_sorted key l) hm ?_
  · exact (sortDesc_perm key l).trans hp
  · have hmm : List.Perm ((sortDesc key l).map key) (m.map key) :=
      ((sortDesc_perm key l).trans hp).map key
    exact hmm.nodup_iff.mpr hnd

end Sorting

/-!
Sequential model of the writer/rotator (`Logger.Write`, `openNew`,
`openExistingOrNew`, `rotate`) and the mill (`millRunOnce`, `mill`,
`StopMill`).

The directory is abstracted to the set of files the codec recognizes: the
current file at the base path, and archives keyed by their timestamp,
each either still uncompressed (`gz = false`, the transient name without
`.gz`) or compressed (`gz = true`).  The string-level correspondence
between these keys and on-disk names is exactly the codec verified above
(`fpathToTimestamp_iff`), faithful whenever timestamps print as ten
characters.  gzip itself is a parameter `gzipFn` of the model: the
on-disk bytes of a compressed archive with original payload `c` are
`gzipFn c`.

Concurrency is sequentialized: the mill worker's activations appear as
explicit events interleaved with writes, and the buffered signal channel
of capacity two is the counter `pending` (a non-blocking `mill()` send
saturates at 2; a pass drains it to 0, which is precisely
`millRun`'s receive-then-`drainMillCh` discipline).
-/

/-- One archived file: its timestamp, whether the mill has compressed it
(`false` means the transient uncompressed name), and the bytes the writer
originally placed in it. -/
structure Archive where
  ts : Int
  gz : Bool
  payload : List Nat
deriving DecidableEq, Repr

/-- On-disk byte size of an archive (compressed entries hold `gzipFn`
applied to the payload). -/
def Archive.diskSize (gzipFn : List Nat → List Nat) (a : Archive) : Nat :=
  if a.gz then (gzipFn a.payload).length else a.payload.length

/-- Logger configuration: `MaxLogSizeMB`, `MaxTotalSizeMB`, the
megabyte factor `MB` (a package variable mocked by tests), and the
optional formatter `FormatFn` (given the message, it returns the full
payload and the index where the message starts inside it). -/
structure LogConfig where
  maxLogSizeMB : Nat
  maxTotalSizeMB : Nat
  mb : Nat
  fmtFn : Option (List Nat → List Nat × Nat)

/-- `int64(l.MaxLogSizeMB * MB)`: the rotation threshold in bytes. -/
def LogConfig.maxBytes (c : LogConfig) : Nat := c.maxLogSizeMB * c.mb

/-- `int64((l.MaxTotalSizeMB - l.MaxLogSizeMB) * MB)`: the archive
budget.  (Go computes the subtraction on `uint`; under the documented
precondition `maxTotalSizeMB ≥ maxLogSizeMB + 1` it agrees with
truncated subtraction on `Nat`.) -/
def LogConfig.budget (c : LogConfig) : Nat :=
  (c.maxTotalSizeMB - c.maxLogSizeMB) * c.mb

/-- Combined logger and directory state. -/
structure SysState where
  archives : List Archive
  current : Option (List Nat)
  fileOpen : Bool
  size : Nat
  pending : Nat
deriving Repr

/-- `Logger.mill()`: non-blocking send into the capacity-two signal
channel; dropped when the buffer is full. -/
def millSignal (st : SysState) : SysState :=
  { st with pending := min (st.pending + 1) 2 }

/-- `Logger.openNew`: if a file exists at the base path, rename it to the
(uncompressed) archive name stamped with the current time — clobbering
any previous file of that exact name — then create a fresh, truncated
current file and reset the size counter. -/
def openNew (now : Int) (st : SysState) : SysState :=
  match st.current with
  | none => { st with current := some [], fileOpen := true, size := 0 }
  | some c =>
    { st with
      archives :=
        st.archives.filter (fun a => !(a.ts == now && !a.gz)) ++ [⟨now, false, c⟩],
      current := some [], fileOpen := true, size := 0 }

/-- `Logger.rotate`: close the current file, move it aside via `openNew`,
then signal the mill. -/
def rotateStep (now : Int) (st : SysState) : SysState :=
  millSignal (openNew now { st with fileOpen := false })

/-- `Logger.openExistingOrNew`: signal the mill, then stat the base path;
absent → `openNew`; present and `size + writeLen ≥ maxBytes` → rotate;
otherwise open for append and adopt the stat size. -/
def openExistingOrNew (cfg : LogConfig) (now : Int) (writeLen : Nat)
    (st : SysState) : SysState :=
  let st1 := millSignal st
  match st1.current with
  | none => openNew now st1
  | some c =>
    if c.length + writeLen ≥ cfg.maxBytes then rotateStep now st1
    else { st1 with fileOpen := true, size := c.length }

/-- `Logger.Write` (error-free filesystem): open or rotate as required,
format the message if a formatter is configured, append the payload, and
compute the consumed-byte return value. -/
def writeStep (cfg : LogConfig) (now : Int) (st : SysState) (p : List Nat) :
    SysState × Nat :=
  let st1 :=
    if !st.fileOpen then openExistingOrNew cfg now p.length st
    else if st.size + p.length > cfg.maxBytes then rotateStep now st
    else st
  match cfg.fmtFn with
  | none =>
    ({ st1 with
        current := some ((st1.current.getD []) ++ p),
        size := st1.size + p.length },
      p.length)
  | some f =>
    let msg := (f p).1
    let msgIdx := (f p).2
    let n := msg.length
    let consumed :=
      if n < msgIdx then 0
      else if n - msgIdx > p.length then p.length
      else n - msgIdx
    ({ st1 with
        current := some ((st1.current.getD []) ++ msg),
        size := st1.size + n },
      consumed)

/-- Timestamps of the uncompressed archives in a directory listing. -/
def rawTsOf (l : List Archive) : List Int :=
  (l.filter (fun a => !a.gz)).map Archive.ts

/-- The compression phase of `millRunOnce`: every uncompressed archive is
gzipped in place (its `.gz` twin, if any, is overwritten via
`O_CREATE|O_TRUNC`, and the uncompressed source removed); compressed
archives without an uncompressed twin survive unchanged. -/
def compressAll (l : List Archive) : List Archive :=
  l.filter (fun a => a.gz && !((rawTsOf l).contains a.ts))
    ++ (l.filter (fun a => !a.gz)).map (fun a => { a with gz := true })

/-- The eviction walk of `millRunOnce` over the descending-sorted
compressed archives: accumulate sizes (removed files keep counting) and
remove every file at which the running total exceeds the budget. -/
def evictWalk (gzipFn : List Nat → List Nat) (budget : Nat) :
    Nat → List Archive → List Archive
  | _, [] => []
  | total, f :: rest =>
    let total' := total + f.diskSize gzipFn
    if total' > budget then evictWalk gzipFn budget total' rest
    else f :: evictWalk gzipFn budget total' rest

/-- One full mill pass (`millRun` body): drain the signal channel, then
`millRunOnce` — compress all uncompressed archives, sort the compressed
ones newest-first and evict past the budget. -/
def millPass (gzipFn : List Nat → List Nat) (cfg : LogConfig)
    (st : SysState) : SysState :=
  { st with
    pending := 0,
    archives :=
      evictWalk gzipFn cfg.budget 0
        (sortDesc Archive.ts (compressAll st.archives)) }

/-- An externally observable event of the sequentialized system: a
`Logger.Write` call stamped with the wall-clock second `now`, or an
activation of the mill worker. -/
inductive Ev
  | write (now : Int) (p : List Nat)
  | millEv
deriving Repr

/-- Run a trace of events. -/
def runTrace (gzipFn : List Nat → List Nat) (cfg : LogConfig) :
    SysState → List Ev → SysState
  | st, [] => st
  | st, Ev.write now p :: rest =>
    runTrace gzipFn cfg (writeStep cfg now st p).1 rest
  | st, Ev.millEv :: rest =>
    runTrace gzipFn cfg (millPass gzipFn cfg st) rest

/-- The freshly constructed logger over an empty directory. -/
def initState : SysState :=
  { archives := [], current := none, fileOpen := false, size := 0, pending := 0 }

/-- `Logger.Close` (part_003 with the spec's shutdown discipline):
`closeFile`, then `StopMill` — which closes the stop channel once and
joins the worker, the worker first draining and serving any buffered
signals (`for range millCh` processes what is left in the buffer before
exiting) — then close the signal channel once. -/
def closeLogger (gzipFn : List Nat → List Nat) (cfg : LogConfig)
    (st : SysState) : SysState :=
  let st1 := { st with fileOpen := false }
  if st1.pending > 0 then millPass gzipFn cfg st1 else st1

/-- The byte stream a trace writes (no formatter configured). -/
def writtenBytes : List Ev → List Nat
  | [] => []
  | Ev.write _ p :: rest => p ++ writtenBytes rest
  | Ev.millEv :: rest => writtenBytes rest

/-! Rotation-boundary behaviour (claim C4). -/

/-- Claim C4: with the file open and `size` bytes accounted, a write of
exactly `maxBytes - size` bytes does not rotate (the on-write comparison
is strict `>`), the next non-empty write rotates before writing (the old
content becomes the new archive, the fresh file holds only the new
message); whereas with no file open and an existing file of size `c0`,
a first write with `c0.length + r.length = maxBytes` already rotates
(the on-open comparison is `≥`). -/
theorem claim_C4_threshold_boundary (cfg : LogConfig) (now now2 now3 : Int)
    (st st0 : SysState) (p q r c c0 : List Nat)
    (hfmt : cfg.fmtFn = none)
    (hopen : st.fileOpen = true) (hcur : st.current = some c)
    (hlen : st.size + p.length = cfg.maxBytes) (hq : q ≠ [])
    (hopen0 : st0.fileOpen = false) (hcur0 : st0.current = some c0)
    (hlen0 : c0.length + r.length = cfg.maxBytes) :
    (writeStep cfg now st p).1.archives = st.archives
    ∧ (writeStep cfg now st p).1.current = some (c ++ p)
    ∧ (writeStep cfg now st p).1.size = cfg.maxBytes
    ∧ (writeStep cfg now2 (writeStep cfg now st p).1 q).1.archives
        = st.archives.filter (fun a => !(a.ts == now2 && !a.gz))
          ++ [⟨now2, false, c ++ p⟩]
    ∧ (writeStep cfg now2 (writeStep cfg now st p).1 q).1.current = some q
    ∧ (writeStep cfg now3 st0 r).1.archives
        = st0.archives.filter (fun a => !(a.ts == now3 && !a.gz))
          ++ [⟨now3, false, c0⟩] := by
  have hnogt : ¬st.size + p.length > cfg.maxBytes := by omega
  have h1 : (writeStep cfg now st p).1
      = { st with current := some (c ++ p), size := st.size + p.length } := by
    simp [writeStep, hopen, hnogt, hfmt, hcur]
  have hq1 : 1 ≤ q.length := by
    cases q with
    | nil => exact absurd rfl hq
    | cons a l => simp
  have h2 : (writeStep cfg now2 (writeStep cfg now st p).1 q).1
      = { st with
          archives := st.archives.filter (fun a => !(a.ts == now2 && !a.gz))
            ++ [⟨now2, false, c ++ p⟩],
          current := some q, fileOpen := true, size := q.length,
          pending := min (st.pending + 1) 2 } := by
    rw [h1]
    have hgt : st.size + p.length + q.length > cfg.maxBytes := by omega
    simp [writeStep, hopen, hgt, hfmt, rotateStep, openNew, millSignal]
  have h3 : (writeStep cfg now3 st0 r).1.archives
      = st0.archives.filter (fun a => !(a.ts == now3 && !a.gz))
        ++ [⟨now3, false, c0⟩] := by
    have hge : c0.length + r.length ≥ cfg.maxBytes := by omega
    simp [writeStep, hopen0, openExistingOrNew, millSignal, hcur0, hge,
      rotateStep, openNew, hfmt]
  refine ⟨by rw [h1], by rw [h1], by rw [h1]; simpa using hlen, ?_, by rw [h2], h3⟩
  rw [h2]

/-- Witness for `claim_C4_threshold_boundary`: `maxBytes = 4`, a file
open with 2 bytes accounted, a 2-byte boundary write, then a 1-byte
write; and an open-path first write meeting the threshold exactly. -/
theorem claim_C4_witness :
    (writeStep ⟨1, 2, 4, none⟩ 1500000000
        ⟨[], some [1, 2], true, 2, 0⟩ [3, 4]).1.archives = []
    ∧ (writeStep ⟨1, 2, 4, none⟩ 1500000000
        ⟨[], some [1, 2], true, 2, 0⟩ [3, 4]).1.current = some [1, 2, 3, 4]
    ∧ (writeStep ⟨1, 2, 4, none⟩ 1500000000
        ⟨[], some [1, 2], true, 2, 0⟩ [3, 4]).1.size
        = LogConfig.maxBytes ⟨1, 2, 4, none⟩
    ∧ (writeStep ⟨1, 2, 4, none⟩ 1500000001
        (writeStep ⟨1, 2, 4, none⟩ 1500000000
          ⟨[], some [1, 2], true, 2, 0⟩ [3, 4]).1 [5]).1.archives
        = List.filter (fun a => !(a.ts == 1500000001 && !a.gz)) []
          ++ [⟨1500000001, false, [1, 2] ++ [3, 4]⟩]
    ∧ (writeStep ⟨1, 2, 4, none⟩ 1500000001
        (writeStep ⟨1, 2, 4, none⟩ 1500000000
          ⟨[], some [1, 2], true, 2, 0⟩ [3, 4]).1 [5]).1.current = some [5]
    ∧ (writeStep ⟨1, 2, 4, none⟩ 1500000002
        ⟨[], some [9, 9, 9], false, 0, 0⟩ [8]).1.archives
        = List.filter (fun a => !(a.ts == 1500000002 && !a.gz)) []
          ++ [⟨1500000002, false, [9, 9, 9]⟩] :=
  claim_C4_threshold_boundary ⟨1, 2, 4, none⟩ 1500000000 1500000001 1500000002
    ⟨[], some [1, 2], true, 2, 0⟩ ⟨[], some [9, 9, 9], false, 0, 0⟩
    [3, 4] [5] [8] [1, 2] [9, 9, 9]
    rfl rfl rfl rfl (by decide) rfl rfl rfl

/-! Empty writes (claim C5). -/

/-- Claim C5 (amended): an empty `Write` always reports `0` consumed
bytes with no error; with no formatter configured (and the file open
within its threshold) it appends nothing and leaves the directory
unchanged, but with a formatter configured the formatter's payload for
the empty message — for example a timestamp prefix — is appended to the
current file even though `0` is returned. -/
theorem claim_C5_empty_write (cfg cfg2 : LogConfig)
    (f : List Nat → List Nat × Nat) (now : Int) (st st2 : SysState)
    (c c2 : List Nat)
    (hfmt : cfg.fmtFn = none) (hopen : st.fileOpen = true)
    (hcur : st.current = some c) (hsz : st.size ≤ cfg.maxBytes)
    (hfmt2 : cfg2.fmtFn = some f) (hopen2 : st2.fileOpen = true)
    (hcur2 : st2.current = some c2) (hsz2 : st2.size ≤ cfg2.maxBytes) :
    (writeStep cfg now st []).2 = 0
    ∧ (writeStep cfg now st []).1.current = some c
    ∧ (writeStep cfg now st []).1.archives = st.archives
    ∧ (writeStep cfg2 now st2 []).2 = 0
    ∧ (writeStep cfg2 now st2 []).1.current = some (c2 ++ (f []).1) := by
  have hlt : ¬cfg.maxBytes < st.size := by omega
  have hlt2 : ¬cfg2.maxBytes < st2.size := by omega
  refine ⟨?_, ?_, ?_, ?_, ?_⟩
  · simp [writeStep, hopen, hlt, hfmt]
  · simp [writeStep, hopen, hlt, hfmt, hcur]
  · simp [writeStep, hopen, hlt, hfmt]
  · simp only [writeStep, hopen2, hfmt2]
    simp [hlt2]
    omega
  · simp [writeStep, hopen2, hlt2, hfmt2, hcur2]

/-- Claim C5 fails as stated: with a formatter that prepends the prefix
`"X:"` (bytes 88, 58), an empty write on an open, empty current file
returns 0 consumed bytes yet appends the two prefix bytes to the file. -/
theorem claim_C5_counterexample :
    (writeStep ⟨1, 2, 1048576, some fun p => (88 :: 58 :: p, 2)⟩ 0
        ⟨[], some [], true, 0, 0⟩ []).1.current ≠ some []
    ∧ (writeStep ⟨1, 2, 1048576, some fun p => (88 :: 58 :: p, 2)⟩ 0
        ⟨[], some [], true, 0, 0⟩ []).2 = 0 := by
  constructor
  · intro h
    simp [writeStep] at h
  · rfl

/-- Witness for `claim_C5_empty_write`. -/
theorem claim_C5_witness :
    (writeStep ⟨1, 2, 8, none⟩ 0 ⟨[], some [7], true, 1, 0⟩ []).2 = 0
    ∧ (writeStep ⟨1, 2, 8, none⟩ 0 ⟨[], some [7], true, 1, 0⟩ []).1.current
        = some [7]
    ∧ (writeStep ⟨1, 2, 8, none⟩ 0 ⟨[], some [7], true, 1, 0⟩ []).1.archives
        = []
    ∧ (writeStep ⟨1, 2, 8, some fun p => (88 :: 58 :: p, 2)⟩ 0
        ⟨[], some [7], true, 1, 0⟩ []).2 = 0
    ∧ (writeStep ⟨1, 2, 8, some fun p => (88 :: 58 :: p, 2)⟩ 0
        ⟨[], some [7], true, 1, 0⟩ []).1.current
        = some ([7] ++ ((fun p => (88 :: 58 :: p, 2)) []).1) :=
  claim_C5_empty_write ⟨1, 2, 8, none⟩ ⟨1, 2, 8, some fun p => (88 :: 58 :: p, 2)⟩
    (fun p => (88 :: 58 :: p, 2)) 0 ⟨[], some [7], true, 1, 0⟩
    ⟨[], some [7], true, 1, 0⟩ [7] [7]
    rfl rfl rfl (by decide) rfl rfl rfl (by decide)

/-! Budget eviction (claim C7). -/

/-- Total on-disk size of a list of archives. -/
def sizesSum (gzipFn : List Nat → List Nat) (l : List Archive) : Nat :=
  (l.map (Archive.diskSize gzipFn)).sum

theorem evictWalk_gt (gzipFn : List Nat → List Nat) (budget : Nat) :
    ∀ fs : List Archive, ∀ total : Nat, budget < total →
      evictWalk gzipFn budget total fs = [] := by
  intro fs
  induction fs with
  | nil => intro total _; rfl
  | cons f rest ih =>
    intro total h
    rw [evictWalk]
    have : budget < total + f.diskSize gzipFn := by omega
    simp only [if_pos (show total + f.diskSize gzipFn > budget from this)]
    exact ih _ this

/-- The eviction walk keeps exactly the longest prefix of the
descending-sorted archives whose running size (removed files included)
stays within the budget, and removes everything after the first
overflow. -/
theorem evictWalk_spec (gzipFn : List Nat → List Nat) (budget : Nat) :
    ∀ fs : List Archive, ∀ total : Nat, total ≤ budget →
      ∃ k, evictWalk gzipFn budget total fs = fs.take k
        ∧ total + sizesSum gzipFn (fs.take k) ≤ budget
        ∧ (k < fs.length → budget < total + sizesSum gzipFn (fs.take (k + 1)))
        ∧ k ≤ fs.length := by
  intro fs
  induction fs with
  | nil =>
    intro total h
    exact ⟨0, rfl, by simpa [sizesSum], by simp, by simp⟩
  | cons f rest ih =>
    intro total h
    rw [evictWalk]
    by_cases hover : total + f.diskSize gzipFn > budget
    · refine ⟨0, ?_, ?_, ?_, ?_⟩
      · simp only [if_pos hover]
        exact evictWalk_gt gzipFn budget rest _ hover
      · simpa [sizesSum] using h
      · intro _
        simpa [sizesSum] using hover
      · simp
    · obtain ⟨k, hk, hsum, hbound, hlen⟩ :=
        ih (total + f.diskSize gzipFn) (by omega)
      refine ⟨k + 1, ?_, ?_, ?_, ?_⟩
      · simp only [if_neg hover, hk, List.take_succ_cons]
      · have h' := hsum
        simp only [sizesSum, List.take_succ_cons, List.map_cons,
          List.sum_cons] at h' ⊢
        omega
      · intro hklt
        have hklt' : k < rest.length := by simpa using hklt
        have h' := hbound hklt'
        simp only [sizesSum, List.take_succ_cons, List.map_cons,
          List.sum_cons] at h' ⊢
        omega
      · simpa using hlen

/-- Claim C7: in every mill pass, with the compressed archives sorted
newest-first and their sizes accumulated into a running sum (removed
files keep counting), exactly the files at which the running sum exceeds
`(maxTotalSizeMB - maxLogSizeMB) * 2^20` are removed — every file from
the first overflowing one onward — so the retained newest archives are a
prefix of the newest-first order totalling at most the budget. -/
theorem claim_C7_budget_eviction (gzipFn : List Nat → List Nat)
    (cfg : LogConfig) (st : SysState)
    (hpre : cfg.maxLogSizeMB + 1 ≤ cfg.maxTotalSizeMB)
    (hmb : cfg.mb = 1048576) :
    cfg.budget = (cfg.maxTotalSizeMB - cfg.maxLogSizeMB) * 1048576
    ∧ ∃ k,
      (millPass gzipFn cfg st).archives
        = (sortDesc Archive.ts (compressAll st.archives)).take k
      ∧ sizesSum gzipFn ((millPass gzipFn cfg st).archives) ≤ cfg.budget
      ∧ (k < (sortDesc Archive.ts (compressAll st.archives)).length →
          cfg.budget
            < sizesSum gzipFn
                ((sortDesc Archive.ts (compressAll st.archives)).take (k + 1)))
      ∧ k ≤ (sortDesc Archive.ts (compressAll st.archives)).length := by
  constructor
  · rw [LogConfig.budget, hmb]
  · obtain ⟨k, hk, hsum, hbound, hlen⟩ :=
      evictWalk_spec gzipFn cfg.budget
        (sortDesc Archive.ts (compressAll st.archives)) 0 (by omega)
    refine ⟨k, ?_, ?_, ?_, hlen⟩
    · simpa [millPass] using hk
    · simp only [millPass]
      rw [hk]
      omega
    · intro hklt
      have := hbound hklt
      omega

/-- Witness for `claim_C7_budget_eviction`: two compressed one-byte
archives against a two-mebibyte budget (`maxLogSizeMB = 1`,
`maxTotalSizeMB = 3`, `MB = 2^20`); nothing is evicted. -/
theorem claim_C7_witness :
    LogConfig.budget ⟨1, 3, 1048576, none⟩
      = ((⟨1, 3, 1048576, none⟩ : LogConfig).maxTotalSizeMB
          - (⟨1, 3, 1048576, none⟩ : LogConfig).maxLogSizeMB) * 1048576
    ∧ ∃ k,
      (millPass id ⟨1, 3, 1048576, none⟩
          ⟨[⟨1500000000, true, [7]⟩, ⟨1500000001, true, [8]⟩], none, false, 0, 0⟩).archives
        = (sortDesc Archive.ts (compressAll
            [⟨1500000000, true, [7]⟩, ⟨1500000001, true, [8]⟩])).take k
      ∧ sizesSum id
          ((millPass id ⟨1, 3, 1048576, none⟩
            ⟨[⟨1500000000, true, [7]⟩, ⟨1500000001, true, [8]⟩], none, false, 0, 0⟩).archives)
          ≤ LogConfig.budget ⟨1, 3, 1048576, none⟩
      ∧ (k < (sortDesc Archive.ts (compressAll
            [⟨1500000000, true, [7]⟩, ⟨1500000001, true, [8]⟩])).length →
          LogConfig.budget ⟨1, 3, 1048576, none⟩
            < sizesSum id
                ((sortDesc Archive.ts (compressAll
                  [⟨1500000000, true, [7]⟩, ⟨1500000001, true, [8]⟩])).take (k + 1)))
      ∧ k ≤ (sortDesc Archive.ts (compressAll
          [⟨1500000000, true, [7]⟩, ⟨1500000001, true, [8]⟩])).length :=
  claim_C7_budget_eviction id ⟨1, 3, 1048576, none⟩
    ⟨[⟨1500000000, true, [7]⟩, ⟨1500000001, true, [8]⟩], none, false, 0, 0⟩
    (by decide) rfl

/-!
Compression atomicity (claim C6).  `compressLogFile` is modelled over the
two files it touches — the uncompressed source and its `.gz` destination
— with one oracle flag per fallible OS step, in source order: open the
source, stat it, open the destination with `O_CREATE|O_TRUNC|O_WRONLY`,
stream-copy through the gzip writer, close the gzip writer, close the
destination file, close the source, remove the source.  The deferred
`os.Remove(dst)` on error discards its own error in the source and is
modelled as succeeding; once the destination has been opened (truncated),
any later failure leaves partial data there, which that defer removes.
-/

/-- The two files `compressLogFile` touches. -/
structure CompressFs where
  src : Option (List Nat)
  dst : Option (List Nat)
deriving DecidableEq, Repr

/-- One success/failure flag per fallible step of `compressLogFile`. -/
structure CompressOracle where
  openSrcOk : Bool
  statOk : Bool
  openDstOk : Bool
  copyOk : Bool
  gzCloseOk : Bool
  gzfCloseOk : Bool
  fCloseOk : Bool
  removeSrcOk : Bool
deriving DecidableEq, Repr

/-- `compressLogFile` (mill.go): returns the resulting filesystem and
`true` for a nil error. -/
def compressLogFile (gzipFn : List Nat → List Nat) (o : CompressOracle)
    (fs : CompressFs) : CompressFs × Bool :=
  match fs.src with
  | none => (fs, false)
  | some c =>
    if !o.openSrcOk then (fs, false)
    else if !o.statOk then (fs, false)
    else if !o.openDstOk then (fs, false)
    else if !o.copyOk then ({ src := some c, dst := none }, false)
    else if !o.gzCloseOk then ({ src := some c, dst := none }, false)
    else if !o.gzfCloseOk then ({ src := some c, dst := none }, false)
    else if !o.fCloseOk then ({ src := some c, dst := none }, false)
    else if !o.removeSrcOk then ({ src := some c, dst := none }, false)
    else ({ src := none, dst := some (gzipFn c) }, true)

/-- Claim C6: applied to an uncompressed archive source (present, with no
pre-existing `.gz`), `compressLogFile` is atomic in outcome for every
pattern of step failures: on success the source is gone and the `.gz`
holds exactly the gzip compression of the source bytes; on error the
partial `.gz` has been removed and the source is intact. -/
theorem claim_C6_compress_atomicity (gzipFn : List Nat → List Nat)
    (o : CompressOracle) (c : List Nat) :
    (compressLogFile gzipFn o ⟨some c, none⟩).1
      = (if (compressLogFile gzipFn o ⟨some c, none⟩).2
          then ⟨none, some (gzipFn c)⟩
          else ⟨some c, none⟩) := by
  obtain ⟨b1, b2, b3, b4, b5, b6, b7, b8⟩ := o
  cases b1 <;> cases b2 <;> cases b3 <;> cases b4 <;> cases b5 <;>
    cases b6 <;> cases b7 <;> cases b8 <;> rfl

/-!
Control plane after close (claim C8).  The model keeps the state the
shutdown path manipulates: whether the logger holds an open file, whether
the capacity-two signal channel `millCh` has been closed, and the three
once-guards.  A Go send on a closed channel panics — also inside a
`select` with a `default` branch — which is the only panic source here.

`Logger.Close` (part_003) runs `closeFile`, then `StopMill`, then closes
`millCh` exactly once under `millCloseOnce`.  The body of the `StopMill`
belonging to that snapshot is not under `src/` (the `StopMill` in mill.go
closes `millCh` itself and pairs with the lib.go snapshot's struct), so
it is modelled from the spec: "stop_mill closes the signal channel
exactly once (guarded by a once-flag); the worker exits its receive loop
after draining outstanding work; the join handle is awaited", with §4.2
distinguishing "stop the mill" from "release the signal slot" — the
stop signal travels on its own closing channel, and `Close` releases the
slot (`millCh`) afterwards.
-/

/-- Control-plane state of the logger's shutdown machinery. -/
structure CtlState where
  fileOpen : Bool
  millChClosed : Bool
  stopOnceDone : Bool
  closeOnceDone : Bool
  closingChClosed : Bool
deriving DecidableEq, Repr

/-- Result of a control-plane operation: the new state, or a runtime
panic. -/
inductive CtlRes
  | ok (s : CtlState)
  | panicked
deriving DecidableEq, Repr

/-- `Logger.mill()`: non-blocking send into `millCh`; a send on a closed
channel panics even under `select`/`default`. -/
def ctlMillSignal (s : CtlState) : CtlRes :=
  if s.millChClosed then .panicked else .ok s

/-- Modelled from the spec: `Logger.StopMill` of the part_003 snapshot —
missing from `src/` — closes the stop channel exactly once under its
once-guard and joins the worker (the join has no control-plane effect). -/
def ctlStopMill (s : CtlState) : CtlState :=
  if s.stopOnceDone then s
  else { s with stopOnceDone := true, closingChClosed := true }

/-- `Logger.Close` (part_003): `closeFile`, `StopMill`, then close
`millCh` exactly once under `millCloseOnce` (closing an already-closed
channel would panic; the once-guard prevents a second execution). -/
def ctlClose (s : CtlState) : CtlRes :=
  let s2 := ctlStopMill { s with fileOpen := false }
  if s2.closeOnceDone then .ok s2
  else if s2.millChClosed then .panicked
  else .ok { s2 with closeOnceDone := true, millChClosed := true }

/-- `Logger.Flush`: `Flush(me.file)` — a nil or non-flushing writer makes
it a no-op. -/
def ctlFlush (s : CtlState) : CtlRes := .ok s

/-- `Logger.StopMill` as an API call. -/
def ctlStopMillOp (s : CtlState) : CtlRes := .ok (ctlStopMill s)

/-- `Logger.Write` at the control level: with no open file the write path
enters `openExistingOrNew`, whose first action is `me.mill()`; with an
open file no signal is sent unless a rotation triggers (not reached in
the post-close states this claim is about). -/
def ctlWrite (s : CtlState) : CtlRes :=
  if !s.fileOpen then ctlMillSignal s else .ok s

/-- `Logger.RotateClose`: sleep, then `rotate` — `closeFile`, `openNew`
(which re-opens a file), then `mill()` — then `Close`. -/
def ctlRotateClose (s : CtlState) : CtlRes :=
  match ctlMillSignal { s with fileOpen := true } with
  | .panicked => .panicked
  | .ok s2 => ctlClose s2

/-- Claim C8 (amended): after `Close` has returned, `Flush`, `Close` and
`StopMill` are safe idempotent no-ops, but `Write` and `RotateClose` are
not — their very first interaction with the mill is a non-blocking send
on the now-closed signal channel, which panics. -/
theorem claim_C8_post_close (s s' : CtlState)
    (hch : s.millChClosed = false) (honce : s.closeOnceDone = false)
    (hclose : ctlClose s = CtlRes.ok s') :
    ctlClose s' = CtlRes.ok s'
    ∧ ctlFlush s' = CtlRes.ok s'
    ∧ ctlStopMillOp s' = CtlRes.ok s'
    ∧ ctlWrite s' = CtlRes.panicked
    ∧ ctlRotateClose s' = CtlRes.panicked := by
  obtain ⟨f, ch, so, co, cl⟩ := s
  cases f <;> cases ch <;> cases so <;> cases co <;> cases cl <;>
    first
      | (injection hclose with h; subst h; decide)
      | (exact absurd hch (by decide))
      | (exact absurd honce (by decide))

/-- Claim C8 fails as stated: from a running logger (file open, channel
live), `Close` succeeds, and the very next `Write` panics — the write
path calls `openExistingOrNew`, whose first step sends on the closed
`millCh`. -/
theorem claim_C8_counterexample :
    ctlClose ⟨true, false, false, false, false⟩
      = CtlRes.ok ⟨false, true, true, true, true⟩
    ∧ ctlWrite ⟨false, true, true, true, true⟩ = CtlRes.panicked := by
  decide

/-- Witness for `claim_C8_post_close` from the freshly running state. -/
theorem claim_C8_witness :
    ctlClose ⟨false, true, true, true, true⟩
        = CtlRes.ok ⟨false, true, true, true, true⟩
    ∧ ctlFlush ⟨false, true, true, true, true⟩
        = CtlRes.ok ⟨false, true, true, true, true⟩
    ∧ ctlStopMillOp ⟨false, true, true, true, true⟩
        = CtlRes.ok ⟨false, true, true, true, true⟩
    ∧ ctlWrite ⟨false, true, true, true, true⟩ = CtlRes.panicked
    ∧ ctlRotateClose ⟨false, true, true, true, true⟩ = CtlRes.panicked :=
  claim_C8_post_close ⟨true, false, false, false, false⟩
    ⟨false, true, true, true, true⟩ rfl rfl (by decide)

/-!
The reader's archive scan (claim C9): `Muster.getNewTimestamps` at the
file-name level, plus the lookback cap `MaxArchiveLookback`.
-/

/-- `BIG_TIMESTAMP`, the sentinel for "no unready archive seen". -/
def BIG_TIMESTAMP : Int := 999999999999

/-- The scan fields of a `Muster`. -/
structure ScanState where
  latestTs : Int
  unreadyTs : Int
deriving DecidableEq, Repr

/-- `getOpenFilesLimit`: the soft `RLIMIT_NOFILE`, or 1024 when the
query fails (`none`). -/
def getOpenFilesLimit (rlim : Option Nat) : Nat := rlim.getD 1024

/-- `Muster.MaxArchiveLookback`: the source computes
`int(0.75 * float64(limit))`.  The IEEE-754 double product `0.75 · n`
equals the rational `3n/4` exactly whenever `3n` is representable
(every `n < 2^53 / 3`, far above any attainable file-descriptor limit),
so the conversion to `int` (truncation) is `3 * limit / 4` on `Nat`. -/
def maxArchiveLookback (rlim : Option Nat) : Nat :=
  3 * getOpenFilesLimit rlim / 4

/-- The directory loop of `Muster.getNewTimestamps`: each listed name is
first tested with `".gz"` appended (an in-progress compression, which
lowers the unready ceiling), then as a compressed archive, collecting
timestamps above `latestTs`; `latestTs` itself is only updated after the
loop. -/
def scanFiles (p : PathParts) : List GoStr → ScanState → ScanState × List Int
  | [], st => (st, [])
  | f :: rest, st =>
    match fpathToTimestamp p (p.dir ++ f ++ compressSuffix) with
    | some ts =>
      scanFiles p rest
        (if ts < st.unreadyTs then { st with unreadyTs := ts } else st)
    | none =>
      match fpathToTimestamp p (p.dir ++ f) with
      | some ts =>
        let r := scanFiles p rest st
        if ts > st.latestTs then (r.1, ts :: r.2) else r
      | none => scanFiles p rest st

/-- The ready timestamps of one scan pass: candidates above `latestTs`,
restricted to those below the unready ceiling established by the same
pass. -/
def readyTimestamps (p : PathParts) (files : List GoStr) (st0 : ScanState) :
    List Int :=
  let r := scanFiles p files { st0 with unreadyTs := BIG_TIMESTAMP }
  r.2.filter (fun ts => decide (ts < r.1.unreadyTs))

/-- `Muster.getNewTimestamps`: reset the unready ceiling, scan the
directory, keep ready timestamps, sort them descending, cap the list at
the lookback, and remember the newest returned timestamp. -/
def getNewTimestamps (p : PathParts) (lookback : Nat) (files : List GoStr)
    (st0 : ScanState) : ScanState × List Int :=
  let r := scanFiles p files { st0 with unreadyTs := BIG_TIMESTAMP }
  let ready := r.2.filter (fun ts => decide (ts < r.1.unreadyTs))
  let sorted := (sortDesc id ready).take lookback
  (match sorted with
    | [] => r.1
    | t :: _ => { r.1 with latestTs := t }, sorted)

/-- Claim C9: one scan pass returns at most
`MaxArchiveLookback = ⌊0.75 · RLIMIT_NOFILE_soft⌋` timestamps (768 under
the 1024 default) — hence at most that many archives are subsequently
opened — and they are exactly the newest ready ones, in descending
order: every ready timestamp that is not selected is at most every
selected one. -/
theorem claim_C9_lookback_cap (p : PathParts) (rlim : Option Nat)
    (files : List GoStr) (st0 : ScanState) :
    (getNewTimestamps p (maxArchiveLookback rlim) files st0).2.length
        ≤ maxArchiveLookback rlim
    ∧ DescSorted id (getNewTimestamps p (maxArchiveLookback rlim) files st0).2
    ∧ (getNewTimestamps p (maxArchiveLookback rlim) files st0).2
        = (sortDesc id (readyTimestamps p files st0)).take
            (maxArchiveLookback rlim)
    ∧ (∀ t ∈ readyTimestamps p files st0,
        t ∉ (getNewTimestamps p (maxArchiveLookback rlim) files st0).2 →
        ∀ t' ∈ (getNewTimestamps p (maxArchiveLookback rlim) files st0).2,
          t ≤ t')
    ∧ maxArchiveLookback none = 768 := by
  have hres : (getNewTimestamps p (maxArchiveLookback rlim) files st0).2
      = (sortDesc id (readyTimestamps p files st0)).take
          (maxArchiveLookback rlim) := by
    simp only [getNewTimestamps, readyTimestamps]
  set lb := maxArchiveLookback rlim
  set ready := readyTimestamps p files st0
  refine ⟨?_, ?_, hres, ?_, rfl⟩
  · rw [hres]
    simp only [List.length_take]
    omega
  · rw [hres]
    exact List.Pairwise.sublist (List.take_sublist lb _)
      (sortDesc_sorted id ready)
  · intro t ht hnot t' ht'
    rw [hres] at hnot ht'
    have htin : t ∈ sortDesc id ready := (sortDesc_perm id ready).mem_iff.mpr ht
    have hsplit : sortDesc id ready
        = (sortDesc id ready).take lb ++ (sortDesc id ready).drop lb :=
      (List.take_append_drop lb _).symm
    have hdropin : t ∈ (sortDesc id ready).drop lb := by
      rcases List.mem_append.mp (hsplit ▸ htin) with h | h
      · exact absurd h hnot
      · exact h
    have hpair := sortDesc_sorted id ready
    rw [hsplit] at hpair
    exact (List.pairwise_append.mp hpair).2.2 t' ht' t hdropin

/-!
The replay reader's state machine (`Muster.Read`), for claims C1 and C10.

The directory is the same classified abstraction used by the writer
model: a list of `Archive`s plus the optional current file.  The
string-level classification the source performs entry by entry is the
codec proved in `fpathToTimestamp_iff` (an uncompressed archive is
recognized through `name ++ ".gz"`, a compressed one through `name`
itself; a compressed name re-suffixed with `".gz"` always fails the
length check), faithful whenever timestamps print as ten characters.

A file handle keeps its unread bytes and a closed flag; reads return the
whole remaining content at once (chunking does not affect the
concatenated stream).  `io.MultiReader` over the per-archive gzip
readers is the queue `chain` of decompressed payloads, oldest first.
One `Read` call loops internally (load archives / sleep on an unready
archive / open the current file); the loop is fuelled, and `stuck`
stands for a call still sleeping when fuel runs out.
-/

/-- On-disk bytes of an archive. -/
def Archive.diskBytes (gzipFn : List Nat → List Nat) (a : Archive) :
    List Nat :=
  if a.gz then gzipFn a.payload else a.payload

/-- An open file handle: remaining unread bytes and whether `Close` has
been called on it. -/
structure FileHandle where
  rem : List Nat
  closed : Bool
deriving DecidableEq, Repr

/-- The reader state (`Muster`): newest consumed archive timestamp,
unready ceiling, the chained archive reader, and the current-file
handle. -/
structure MusterSt where
  latestTs : Int
  unreadyTs : Int
  chain : Option (List (List Nat))
  lastOpenFile : Option FileHandle
deriving DecidableEq, Repr

/-- Go error values the reader distinguishes: `io.EOF`, `os.ErrClosed`,
`os.ErrNotExist`, and `fmt.Errorf("...: %w", e)` wrapping. -/
inductive GoErr
  | eof
  | fileClosed
  | notExist
  | wrapped (e : GoErr)
deriving DecidableEq, Repr

/-- Result of one `Read` call: a byte chunk with nil error (possibly
empty — the reader returns `(0, nil)` after closing an exhausted
chain), `io.EOF`, an error, or out of fuel while sleeping. -/
inductive ReadRes
  | bytes (chunk : List Nat)
  | eof
  | fail (e : GoErr)
  | stuck
deriving DecidableEq, Repr

/-- `io.MultiReader.Read`: serve the first non-empty stream whole;
report end (`none`) once every stream is exhausted. -/
def multiRead : List (List Nat) → Option (List Nat) × List (List Nat)
  | [] => (none, [])
  | c :: rest => if c.isEmpty then multiRead rest else (some c, rest)

/-- The head of a timestamp list, or a default when it is empty (the
source only updates `latestTs` when the selection is non-empty). -/
def headOrD (d : Int) : List Int → Int
  | [] => d
  | t :: _ => t

/-- `Muster.getNewTimestamps` over the classified directory: reset the
unready ceiling, lower it at each uncompressed archive, collect
compressed-archive timestamps above `latestTs`, keep those below the
ceiling, sort descending, cap at the lookback, and remember the newest
selected timestamp. -/
def scanAbs (lookback : Nat) (dir : List Archive) (st : MusterSt) :
    MusterSt × List Int :=
  let unready := (dir.filter (fun a => !a.gz)).foldl
      (fun acc a => if a.ts < acc then a.ts else acc) BIG_TIMESTAMP
  let pot := ((dir.filter (fun a => a.gz)).map Archive.ts).filter
      (fun ts => decide (ts > st.latestTs))
  let ready := pot.filter (fun ts => decide (ts < unready))
  let sorted := (sortDesc id ready).take lookback
  ({ st with
      unreadyTs := unready,
      latestTs := headOrD st.latestTs sorted },
    sorted)

/-- `Muster.loadArchives`: open the selected archives newest-first,
wrap each in a gzip reader, reverse to oldest-first and chain them.
The multireader is only installed when at least one archive was
selected. -/
def loadAbs (gzipFn gunzipFn : List Nat → List Nat) (lookback : Nat)
    (dir : List Archive) (st : MusterSt) : MusterSt :=
  let r := scanAbs lookback dir st
  let payloads := r.2.reverse.filterMap
      (fun ts => (dir.find? (fun a => a.gz && a.ts == ts)).map
        (fun a => gunzipFn (a.diskBytes gzipFn)))
  { r.1 with chain := if payloads.isEmpty then r.1.chain else some payloads }

/-- One `Muster.Read` call.  In the current-stream phase the handle is
read directly (a read on a closed handle yields `os.ErrClosed`, wrapped
and surfaced; end of file closes the handle, which stays referenced).
In the archive phases the internal loop loads archives, serves the
chain, sleeps while an archive is unready, and finally opens the
current file — re-scanning once if it is missing. -/
def readCall (gzipFn gunzipFn : List Nat → List Nat) (lookback : Nat)
    (dir : List Archive) (current : Option (List Nat)) :
    Nat → MusterSt → MusterSt × ReadRes
  | 0, st => (st, .stuck)
  | fuel + 1, st =>
    match st.lastOpenFile with
    | some fh =>
      if fh.closed then (st, .fail (.wrapped .fileClosed))
      else if fh.rem.isEmpty then
        ({ st with lastOpenFile := some ⟨[], true⟩ }, .eof)
      else ({ st with lastOpenFile := some ⟨[], false⟩ }, .bytes fh.rem)
    | none =>
      let st1 :=
        if st.chain.isNone then loadAbs gzipFn gunzipFn lookback dir st else st
      match st1.chain with
      | some q =>
        match multiRead q with
        | (some c, q') => ({ st1 with chain := some q' }, .bytes c)
        | (none, _) => ({ st1 with chain := none }, .bytes [])
      | none =>
        if st1.unreadyTs < BIG_TIMESTAMP then
          readCall gzipFn gunzipFn lookback dir current fuel st1
        else
          match current with
          | some c =>
            if c.isEmpty then
              ({ st1 with lastOpenFile := some ⟨[], true⟩ }, .eof)
            else ({ st1 with lastOpenFile := some ⟨[], false⟩ }, .bytes c)
          | none =>
            let st2 := loadAbs gzipFn gunzipFn lookback dir st1
            if st2.chain.isSome || decide (st2.unreadyTs < BIG_TIMESTAMP) then
              readCall gzipFn gunzipFn lookback dir current fuel st2
            else (st2, .fail (.wrapped .notExist))

/-- Drive `Read` to completion, concatenating the returned chunks; the
boolean records whether the stream ended with a clean `io.EOF`. -/
def musterReadAll (gzipFn gunzipFn : List Nat → List Nat) (lookback : Nat)
    (dir : List Archive) (current : Option (List Nat)) :
    Nat → MusterSt → List Nat × Bool
  | 0, _ => ([], false)
  | fuel + 1, st =>
    match readCall gzipFn gunzipFn lookback dir current (fuel + 1) st with
    | (st', .bytes c) =>
      let r := musterReadAll gzipFn gunzipFn lookback dir current fuel st'
      (c ++ r.1, r.2)
    | (_, .eof) => ([], true)
    | (_, .fail _) => ([], false)
    | (_, .stuck) => ([], false)

/-- `NewMuster`: nothing consumed, no unready archive, no readers. -/
def initMuster : MusterSt := ⟨0, BIG_TIMESTAMP, none, none⟩

/-- Claim C10: the `Read` call that exhausts the current file closes the
handle but leaves `lastOpenFile` set; every subsequent `Read` on the
same `Muster` reads from that closed handle and returns a wrapped
`os.ErrClosed` — a non-EOF error — instead of `io.EOF` again. -/
theorem claim_C10_read_after_eof (gzipFn gunzipFn : List Nat → List Nat)
    (lookback fuel fuel2 : Nat) (dir : List Archive)
    (current : Option (List Nat)) (st st2 : MusterSt) (fh2 : FileHandle)
    (h : st.lastOpenFile = some ⟨[], false⟩)
    (h2 : st2.lastOpenFile = some fh2) (hcl : fh2.closed = true) :
    readCall gzipFn gunzipFn lookback dir current (fuel + 1) st
      = ({ st with lastOpenFile := some ⟨[], true⟩ }, ReadRes.eof)
    ∧ readCall gzipFn gunzipFn lookback dir current (fuel2 + 1) st2
      = (st2, ReadRes.fail (GoErr.wrapped GoErr.fileClosed))
    ∧ ReadRes.fail (GoErr.wrapped GoErr.fileClosed) ≠ ReadRes.eof := by
  refine ⟨?_, ?_, by decide⟩
  · simp [readCall, h]
  · simp [readCall, h2, hcl]

/-- Witness for `claim_C10_read_after_eof`: the reader just after
emitting the last bytes of the current file, then after the EOF. -/
theorem claim_C10_witness :
    readCall id id 768 [] (some [1]) 1 ⟨0, BIG_TIMESTAMP, none, some ⟨[], false⟩⟩
      = ({ latestTs := 0, unreadyTs := BIG_TIMESTAMP, chain := none,
            lastOpenFile := some ⟨[], true⟩ }, ReadRes.eof)
    ∧ readCall id id 768 [] (some [1]) 1
        ⟨0, BIG_TIMESTAMP, none, some ⟨[], true⟩⟩
      = (⟨0, BIG_TIMESTAMP, none, some ⟨[], true⟩⟩,
          ReadRes.fail (GoErr.wrapped GoErr.fileClosed))
    ∧ ReadRes.fail (GoErr.wrapped GoErr.fileClosed) ≠ ReadRes.eof :=
  claim_C10_read_after_eof id id 768 0 0 [] (some [1])
    ⟨0, BIG_TIMESTAMP, none, some ⟨[], false⟩⟩
    ⟨0, BIG_TIMESTAMP, none, some ⟨[], true⟩⟩ ⟨[], true⟩ rfl rfl rfl

/-!
Byte conservation across writes, rotations, compression and eviction
(claim C1): invariant machinery for the writer/mill model.
-/

/-- The compression phase flips an archive to its `.gz` form, keeping
timestamp and payload. -/
def markGz (a : Archive) : Archive := { a with gz := true }

/-- The archives of a directory in ascending timestamp order. -/
def ascList (l : List Archive) : List Archive := (sortDesc Archive.ts l).reverse

/-- Concatenated payloads in ascending timestamp order: the claim's
"concatenation of all archive contents in ascending timestamp order,
each decompressed". -/
def histBytes (l : List Archive) : List Nat :=
  ((ascList l).map Archive.payload).flatten

/-- Whether this `Write` call will move the current file to an archive:
on the open path the stat-size condition with `≥`, on the open-file path
the strict `>` condition. -/
def rotatesNow (cfg : LogConfig) (st : SysState) (p : List Nat) : Bool :=
  if !st.fileOpen then
    match st.current with
    | none => false
    | some c => decide (c.length + p.length ≥ cfg.maxBytes)
  else decide (st.size + p.length > cfg.maxBytes)

/-- The claim's "no two rotations in the same wall-clock second", as the
run obeys it: whenever a write triggers a rotation, its wall-clock
second is strictly beyond every archive timestamp present (the clock
advanced past all earlier rotations). -/
def freshTrace (gzipFn : List Nat → List Nat) (cfg : LogConfig) :
    SysState → List Ev → Bool
  | _, [] => true
  | st, Ev.write now p :: rest =>
    (!rotatesNow cfg st p || st.archives.all (fun a => decide (a.ts < now)))
      && freshTrace gzipFn cfg (writeStep cfg now st p).1 rest
  | st, Ev.millEv :: rest =>
    freshTrace gzipFn cfg (millPass gzipFn cfg st) rest

/-- All write events carry wall-clock seconds whose decimal rendering is
ten digits wide (true of the real clock since 2001 and until 2286); the
directory abstraction relies on it (`fpathToTimestamp_iff`). -/
def bandTrace : List Ev → Bool
  | [] => true
  | Ev.write now _ :: rest =>
    decide (1000000000 ≤ now ∧ now < 10000000000) && bandTrace rest
  | Ev.millEv :: rest => bandTrace rest

/-- Whether the trace performs at least one `Write` call. -/
def hasWriteEv : List Ev → Bool
  | [] => false
  | Ev.write _ _ :: _ => true
  | Ev.millEv :: rest => hasWriteEv rest

/-- The conservation invariant of the writer/mill system: the bytes
written so far are an evicted prefix, the archives in ascending order,
then the current file; archive timestamps are pairwise distinct and
ten-digit; and an uncompressed archive can only exist while a mill
signal is pending. -/
structure WriterInv (w : List Nat) (st : SysState) : Prop where
  conserve : ∃ evicted, w = evicted ++ histBytes st.archives
      ++ st.current.getD []
  nodupTs : (st.archives.map Archive.ts).Nodup
  band : ∀ a ∈ st.archives, 1000000000 ≤ a.ts ∧ a.ts < 10000000000
  rawPending : (∃ a ∈ st.archives, a.gz = false) → 1 ≤ st.pending

theorem writerInv_init : WriterInv [] initState :=
  ⟨⟨[], rfl⟩, by simp [initState], by simp [initState], by simp [initState]⟩

theorem filter_clobber_id {l : List Archive} {now : Int}
    (h : ∀ a ∈ l, a.ts < now) :
    l.filter (fun a => !(a.ts == now && !a.gz)) = l := by
  rw [List.filter_eq_self]
  intro a ha
  have := h a ha
  simp only [Bool.not_eq_eq_eq_not, Bool.not_true, Bool.and_eq_false_imp]
  intro hts
  exfalso
  rw [beq_iff_eq] at hts
  omega

theorem sortDesc_append_newest {l : List Archive} {x : Archive}
    (h : ∀ a ∈ l, a.ts < x.ts) (hnd : (l.map Archive.ts).Nodup) :
    sortDesc Archive.ts (l ++ [x]) = x :: sortDesc Archive.ts l := by
  refine sortDesc_eq_of_perm Archive.ts ?_ ?_ ?_
  · have h1 : List.Perm (l ++ [x]) ([x] ++ l) := List.perm_append_comm
    have h2 : List.Perm (x :: l) (x :: sortDesc Archive.ts l) :=
      (sortDesc_perm Archive.ts l).symm.cons x
    exact h1.trans h2
  · refine List.pairwise_cons.mpr ⟨?_, sortDesc_sorted Archive.ts l⟩
    intro b hb
    have hb' : b ∈ l := (sortDesc_perm Archive.ts l).mem_iff.mp hb
    have := h b hb'
    omega
  · simp only [List.map_cons, List.nodup_cons]
    constructor
    · intro hmem
      obtain ⟨b, hb, hbts⟩ := List.mem_map.mp hmem
      have hb' : b ∈ l := (sortDesc_perm Archive.ts l).mem_iff.mp hb
      have := h b hb'
      omega
    · exact ((sortDesc_perm Archive.ts l).map Archive.ts).nodup_iff.mpr hnd

theorem histBytes_append_newest {l : List Archive} {x : Archive}
    (h : ∀ a ∈ l, a.ts < x.ts) (hnd : (l.map Archive.ts).Nodup) :
    histBytes (l ++ [x]) = histBytes l ++ x.payload := by
  rw [histBytes, histBytes, ascList, ascList, sortDesc_append_newest h hnd]
  simp

theorem nodup_ts_append {l : List Archive} {x : Archive}
    (hnd : (l.map Archive.ts).Nodup) (h : ∀ a ∈ l, a.ts < x.ts) :
    ((l ++ [x]).map Archive.ts).Nodup := by
  rw [List.map_append]
  refine (List.perm_append_singleton _ _).nodup_iff.mpr ?_
  refine List.nodup_cons.mpr ⟨?_, hnd⟩
  intro hmem
  obtain ⟨a, ha, hats⟩ := List.mem_map.mp hmem
  have := h a ha
  omega

/-- `Logger.Write` preserves the conservation invariant, provided a
rotating write stamps a second strictly beyond all existing archives. -/
theorem writerInv_write (cfg : LogConfig) (hfmt : cfg.fmtFn = none)
    {w : List Nat} {st : SysState} (inv : WriterInv w st) (now : Int)
    (p : List Nat) (hnow : 1000000000 ≤ now ∧ now < 10000000000)
    (hfresh : rotatesNow cfg st p = true → ∀ a ∈ st.archives, a.ts < now) :
    WriterInv (w ++ p) (writeStep cfg now st p).1 := by
  obtain ⟨⟨e, hcons⟩, hnd, hbandA, hraw⟩ := inv
  by_cases hopen : st.fileOpen = true
  · by_cases hrot : st.size + p.length > cfg.maxBytes
    · have hfr : ∀ a ∈ st.archives, a.ts < now := by
        apply hfresh
        simp [rotatesNow, hopen, hrot]
      rcases hc : st.current with _ | c
      · have harch : (writeStep cfg now st p).1.archives = st.archives := by
          simp [writeStep, hopen, hrot, hfmt, rotateStep, openNew, millSignal, hc]
        have hcur : (writeStep cfg now st p).1.current = some p := by
          simp [writeStep, hopen, hrot, hfmt, rotateStep, openNew, millSignal, hc]
        have hpend : 1 ≤ (writeStep cfg now st p).1.pending := by
          simp [writeStep, hopen, hrot, hfmt, rotateStep, openNew, millSignal, hc]
        refine ⟨⟨e, ?_⟩, ?_, ?_, fun _ => hpend⟩
        · rw [harch, hcur, hcons, hc]
          simp
        · rw [harch]; exact hnd
        · rw [harch]; exact hbandA
      · have harch : (writeStep cfg now st p).1.archives
            = st.archives ++ [⟨now, false, c⟩] := by
          simp only [writeStep, hopen, hrot, hfmt, rotateStep, openNew,
            millSignal, hc]
          simp [filter_clobber_id hfr, hopen, hrot]
          intro a ha
          exact Or.inl (by have := hfr a ha; omega)
        have hcur : (writeStep cfg now st p).1.current = some p := by
          simp [writeStep, hopen, hrot, hfmt, rotateStep, openNew, millSignal, hc]
        have hpend : 1 ≤ (writeStep cfg now st p).1.pending := by
          simp [writeStep, hopen, hrot, hfmt, rotateStep, openNew, millSignal, hc]
        refine ⟨⟨e, ?_⟩, ?_, ?_, fun _ => hpend⟩
        · rw [harch, hcur,
            histBytes_append_newest hfr hnd, hcons, hc]
          simp
        · rw [harch]; exact nodup_ts_append hnd hfr
        · rw [harch]
          intro a ha
          rcases List.mem_append.mp ha with h | h
          · exact hbandA a h
          · simp only [List.mem_singleton] at h
            subst h
            exact hnow
    · have harch : (writeStep cfg now st p).1.archives = st.archives := by
        simp [writeStep, hopen, hrot, hfmt]
      have hcur : (writeStep cfg now st p).1.current
          = some (st.current.getD [] ++ p) := by
        simp [writeStep, hopen, hrot, hfmt]
      have hpend : (writeStep cfg now st p).1.pending = st.pending := by
        simp [writeStep, hopen, hrot, hfmt]
      refine ⟨⟨e, ?_⟩, ?_, ?_, ?_⟩
      · rw [harch, hcur, hcons]
        simp
      · rw [harch]; exact hnd
      · rw [harch]; exact hbandA
      · rw [harch, hpend]; exact hraw
  · have hopen' : st.fileOpen = false := by
      cases h : st.fileOpen
      · rfl
      · exact absurd h hopen
    rcases hc : st.current with _ | c
    · have harch : (writeStep cfg now st p).1.archives = st.archives := by
        simp [writeStep, hopen', hfmt, openExistingOrNew, millSignal, openNew, hc]
      have hcur : (writeStep cfg now st p).1.current = some p := by
        simp [writeStep, hopen', hfmt, openExistingOrNew, millSignal, openNew, hc]
      have hpend : 1 ≤ (writeStep cfg now st p).1.pending := by
        simp [writeStep, hopen', hfmt, openExistingOrNew, millSignal, openNew, hc]
      refine ⟨⟨e, ?_⟩, ?_, ?_, fun _ => hpend⟩
      · rw [harch, hcur, hcons, hc]
        simp
      · rw [harch]; exact hnd
      · rw [harch]; exact hbandA
    · by_cases hge : c.length + p.length ≥ cfg.maxBytes
      · have hfr : ∀ a ∈ st.archives, a.ts < now := by
          apply hfresh
          simp [rotatesNow, hopen', hc, hge]
        have harch : (writeStep cfg now st p).1.archives
            = st.archives ++ [⟨now, false, c⟩] := by
          simp [writeStep, hopen', hfmt, openExistingOrNew, millSignal, hc,
            hge, rotateStep, openNew]
          intro a ha
          exact Or.inl (by have := hfr a ha; omega)
        have hcur : (writeStep cfg now st p).1.current = some p := by
          simp [writeStep, hopen', hfmt, openExistingOrNew, millSignal, hc,
            hge, rotateStep, openNew]
        have hpend : 1 ≤ (writeStep cfg now st p).1.pending := by
          simp [writeStep, hopen', hfmt, openExistingOrNew, millSignal, hc,
            hge, rotateStep, openNew]
        refine ⟨⟨e, ?_⟩, ?_, ?_, fun _ => hpend⟩
        · rw [harch, hcur, histBytes_append_newest hfr hnd, hcons, hc]
          simp
        · rw [harch]; exact nodup_ts_append hnd hfr
        · rw [harch]
          intro a ha
          rcases List.mem_append.mp ha with h | h
          · exact hbandA a h
          · simp only [List.mem_singleton] at h
            subst h
            exact hnow
      · have harch : (writeStep cfg now st p).1.archives = st.archives := by
          simp [writeStep, hopen', hfmt, openExistingOrNew, millSignal, hc, hge]
        have hcur : (writeStep cfg now st p).1.current = some (c ++ p) := by
          simp [writeStep, hopen', hfmt, openExistingOrNew, millSignal, hc, hge]
        have hpend : 1 ≤ (writeStep cfg now st p).1.pending := by
          simp [writeStep, hopen', hfmt, openExistingOrNew, millSignal, hc, hge]
        refine ⟨⟨e, ?_⟩, ?_, ?_, fun _ => hpend⟩
        · rw [harch, hcur, hcons, hc]
          simp
        · rw [harch]; exact hnd
        · rw [harch]; exact hbandA

theorem markGz_eq_self {a : Archive} (h : a.gz = true) : markGz a = a := by
  cases a
  simp only [markGz]
  simp_all

theorem compressAll_perm {l : List Archive}
    (hnd : (l.map Archive.ts).Nodup) :
    List.Perm (compressAll l) (l.map markGz) := by
  have h1 : l.filter (fun a => a.gz && !((rawTsOf l).contains a.ts))
      = l.filter (fun a => a.gz) := by
    apply List.filter_congr
    intro a ha
    by_cases hgz : a.gz = true
    · have hnotmem : a.ts ∉ rawTsOf l := by
        intro hmem
        obtain ⟨b, hb, hbts⟩ := List.mem_map.mp hmem
        have hbl : b ∈ l := List.mem_of_mem_filter hb
        have hbgz := List.of_mem_filter hb
        have hba : b = a := List.inj_on_of_nodup_map hnd hbl ha hbts
        rw [hba] at hbgz
        simp [hgz] at hbgz
      simp [hgz, hnotmem]
    · have hgz' : a.gz = false := by
        cases h : a.gz
        · rfl
        · exact absurd h hgz
      simp [hgz']
  have h2 : (l.filter (fun a => a.gz)).map markGz = l.filter (fun a => a.gz) := by
    have := List.map_congr_left (l := l.filter (fun a => a.gz))
      (f := markGz) (g := id)
      (fun a ha => markGz_eq_self (by simpa using List.of_mem_filter ha))
    simpa using this
  have h3 : compressAll l
      = ((l.filter (fun a => a.gz)) ++ (l.filter (fun a => !a.gz))).map markGz := by
    rw [compressAll, h1, List.map_append, h2]
    rfl
  rw [h3]
  exact (List.filter_append_perm (fun a => a.gz) l).map markGz

theorem sortDesc_compressAll {l : List Archive}
    (hnd : (l.map Archive.ts).Nodup) :
    sortDesc Archive.ts (compressAll l)
      = (sortDesc Archive.ts l).map markGz := by
  refine sortDesc_eq_of_perm Archive.ts ?_ ?_ ?_
  · exact (compressAll_perm hnd).trans
      ((sortDesc_perm Archive.ts l).symm.map markGz)
  · rw [DescSorted, List.pairwise_map]
    have := sortDesc_sorted Archive.ts l
    simpa [DescSorted, markGz] using this
  · rw [List.map_map]
    have hts : (Archive.ts ∘ markGz) = Archive.ts := by
      funext a
      rfl
    rw [hts]
    exact ((sortDesc_perm Archive.ts l).map Archive.ts).nodup_iff.mpr hnd

/-- Sorting an already descending-sorted distinct-key list is the
identity. -/
theorem sortDesc_of_sorted {α : Type} (key : α → Int) {l : List α}
    (hs : DescSorted key l) (hnd : (l.map key).Nodup) :
    sortDesc key l = l :=
  sortDesc_eq_of_perm key (List.Perm.refl l) hs hnd

/-- A mill pass preserves the conservation invariant — evicted archives
move into the evicted prefix — and leaves only compressed archives. -/
theorem writerInv_mill (gzipFn : List Nat → List Nat) (cfg : LogConfig)
    {w : List Nat} {st : SysState} (inv : WriterInv w st) :
    WriterInv w (millPass gzipFn cfg st)
    ∧ ∀ a ∈ (millPass gzipFn cfg st).archives, a.gz = true := by
  obtain ⟨⟨e, hcons⟩, hnd, hbandA, _⟩ := inv
  set m := (sortDesc Archive.ts st.archives).map markGz with hm
  have hmnd : (m.map Archive.ts).Nodup := by
    rw [hm, List.map_map]
    have hts : (Archive.ts ∘ markGz) = Archive.ts := by funext a; rfl
    rw [hts]
    exact ((sortDesc_perm Archive.ts st.archives).map Archive.ts).nodup_iff.mpr hnd
  have hmsorted : DescSorted Archive.ts m := by
    rw [hm, DescSorted, List.pairwise_map]
    have := sortDesc_sorted Archive.ts st.archives
    simpa [DescSorted, markGz] using this
  have hsort : sortDesc Archive.ts (compressAll st.archives) = m :=
    sortDesc_compressAll hnd
  obtain ⟨k, hk, _, _, _⟩ :=
    evictWalk_spec gzipFn cfg.budget m 0 (by omega)
  have harch : (millPass gzipFn cfg st).archives = m.take k := by
    simp only [millPass, hsort]
    exact hk
  have htknd : ((m.take k).map Archive.ts).Nodup :=
    ((List.take_sublist k m).map Archive.ts).nodup hmnd
  have htksorted : DescSorted Archive.ts (m.take k) :=
    List.Pairwise.sublist (List.take_sublist k m) hmsorted
  have hgzAll : ∀ a ∈ (millPass gzipFn cfg st).archives, a.gz = true := by
    intro a ha
    rw [harch] at ha
    have ham : a ∈ m := (List.take_sublist k m).mem ha
    obtain ⟨b, _, hba⟩ := List.mem_map.mp (hm ▸ ham)
    rw [← hba]
    rfl
  refine ⟨⟨?_, ?_, ?_, ?_⟩, hgzAll⟩
  · -- conservation: the dropped suffix of the descending order is the
    -- oldest archives, i.e. a further evicted prefix in ascending order
    refine ⟨e ++ (((m.drop k).reverse).map Archive.payload).flatten, ?_⟩
    have hhist : histBytes st.archives
        = (((m.drop k).reverse).map Archive.payload).flatten
          ++ histBytes (m.take k) := by
      have h1 : histBytes (m.take k)
          = (((m.take k).reverse).map Archive.payload).flatten := by
        rw [histBytes, ascList, sortDesc_of_sorted Archive.ts htksorted htknd]
      have h2 : histBytes st.archives
          = ((m.reverse).map Archive.payload).flatten := by
        rw [histBytes, ascList, hm]
        have : ((sortDesc Archive.ts st.archives).map markGz).reverse
            = ((sortDesc Archive.ts st.archives).reverse).map markGz := by
          simp
        rw [this, List.map_map]
        have hpl : (Archive.payload ∘ markGz) = Archive.payload := by
          funext a; rfl
        rw [hpl]
      rw [h1, h2]
      have : m.reverse = (m.drop k).reverse ++ (m.take k).reverse := by
        conv_lhs => rw [← List.take_append_drop k m]
        rw [List.reverse_append]
      rw [this, List.map_append, List.flatten_append]
    rw [hcons, hhist]
    have hcur : (millPass gzipFn cfg st).current = st.current := rfl
    rw [hcur, harch]
    simp [List.append_assoc]
  · rw [harch]; exact htknd
  · rw [harch]
    intro a ha
    have ham : a ∈ m := (List.take_sublist k m).mem ha
    obtain ⟨b, hb, hba⟩ := List.mem_map.mp (hm ▸ ham)
    have hbarch : b ∈ st.archives :=
      (sortDesc_perm Archive.ts st.archives).mem_iff.mp hb
    have := hbandA b hbarch
    rw [← hba]
    simpa [markGz] using this
  · intro ⟨a, ha, hgz⟩
    rw [hgzAll a ha] at hgz
    simp at hgz

/-- Running any event trace preserves the conservation invariant. -/
theorem writerInv_run (gzipFn : List Nat → List Nat) (cfg : LogConfig)
    (hfmt : cfg.fmtFn = none) :
    ∀ trace : List Ev, ∀ w : List Nat, ∀ st : SysState, WriterInv w st →
      freshTrace gzipFn cfg st trace = true → bandTrace trace = true →
      WriterInv (w ++ writtenBytes trace) (runTrace gzipFn cfg st trace) := by
  intro trace
  induction trace with
  | nil =>
    intro w st inv _ _
    simpa [runTrace, writtenBytes] using inv
  | cons ev rest ih =>
    intro w st inv hfresh hband
    cases ev with
    | write now p =>
      rw [freshTrace, Bool.and_eq_true] at hfresh
      rw [bandTrace, Bool.and_eq_true] at hband
      have hnow : 1000000000 ≤ now ∧ now < 10000000000 := by
        have := hband.1
        simpa using this
      have hrotfresh : rotatesNow cfg st p = true →
          ∀ a ∈ st.archives, a.ts < now := by
        intro hr a ha
        rcases Bool.or_eq_true _ _ |>.mp hfresh.1 with h | h
        · rw [hr] at h
          simp at h
        · have := List.all_eq_true.mp h a ha
          simpa using this
      have inv' := writerInv_write cfg hfmt inv now p hnow hrotfresh
      have := ih (w ++ p) (writeStep cfg now st p).1 inv' hfresh.2 hband.2
      simpa [runTrace, writtenBytes, List.append_assoc] using this
    | millEv =>
      rw [freshTrace] at hfresh
      rw [bandTrace] at hband
      have inv' := (writerInv_mill gzipFn cfg inv).1
      have := ih w (millPass gzipFn cfg st) inv' hfresh hband
      simpa [runTrace, writtenBytes] using this

/-- `Close` preserves the invariant, leaves the current file as it was,
and guarantees every remaining archive is compressed: a pending signal
triggers a final full pass, and with no pending signal the invariant
says no uncompressed archive exists. -/
theorem writerInv_close (gzipFn : List Nat → List Nat) (cfg : LogConfig)
    {w : List Nat} {st : SysState} (inv : WriterInv w st) :
    WriterInv w (closeLogger gzipFn cfg st)
    ∧ (∀ a ∈ (closeLogger gzipFn cfg st).archives, a.gz = true)
    ∧ (closeLogger gzipFn cfg st).current = st.current := by
  obtain ⟨hc, hnd, hb, hraw⟩ := inv
  have inv1 : WriterInv w { st with fileOpen := false } := ⟨hc, hnd, hb, hraw⟩
  rw [closeLogger]
  by_cases hp : { st with fileOpen := false }.pending > 0
  · rw [if_pos hp]
    obtain ⟨inv2, hgz⟩ := writerInv_mill gzipFn cfg inv1
    exact ⟨inv2, hgz, rfl⟩
  · rw [if_neg hp]
    refine ⟨inv1, ?_, rfl⟩
    intro a ha
    by_contra hgz
    have : ∃ b ∈ st.archives, b.gz = false := by
      refine ⟨a, ha, ?_⟩
      cases h : a.gz
      · rfl
      · exact absurd h hgz
    have := hraw this
    simp at hp
    omega

theorem writeStep_current_isSome (cfg : LogConfig) (now : Int)
    (st : SysState) (p : List Nat) :
    ((writeStep cfg now st p).1.current).isSome = true := by
  rw [writeStep]
  cases cfg.fmtFn <;> simp

theorem runTrace_preserves_some (gzipFn : List Nat → List Nat)
    (cfg : LogConfig) :
    ∀ trace : List Ev, ∀ st : SysState, st.current.isSome = true →
      ((runTrace gzipFn cfg st trace).current).isSome = true := by
  intro trace
  induction trace with
  | nil => intro st h; simpa [runTrace] using h
  | cons ev rest ih =>
    intro st h
    cases ev with
    | write now p =>
      exact ih _ (writeStep_current_isSome cfg now st p)
    | millEv =>
      exact ih _ (by simpa [millPass] using h)

/-- A trace containing at least one `Write` leaves a current file on
disk. -/
theorem runTrace_write_some (gzipFn : List Nat → List Nat) (cfg : LogConfig) :
    ∀ trace : List Ev, ∀ st : SysState, hasWriteEv trace = true →
      ((runTrace gzipFn cfg st trace).current).isSome = true := by
  intro trace
  induction trace with
  | nil => intro st h; simp [hasWriteEv] at h
  | cons ev rest ih =>
    intro st h
    cases ev with
    | write now p =>
      exact runTrace_preserves_some gzipFn cfg rest _
        (writeStep_current_isSome cfg now st p)
    | millEv =>
      rw [hasWriteEv] at h
      exact ih _ h

/-! Reader-side lemmas (claim C1): the replay of a closed directory. -/

theorem multiRead_none : ∀ q q' : List (List Nat),
    multiRead q = (none, q') → q.flatten = [] := by
  intro q
  induction q with
  | nil => intro q' _; rfl
  | cons c rest ih =>
    intro q' h
    rw [multiRead] at h
    by_cases hc : c.isEmpty
    · rw [if_pos hc] at h
      have hc' : c = [] := by
        cases c
        · rfl
        · simp [List.isEmpty] at hc
      simp [hc', ih q' h]
    · rw [if_neg hc] at h
      simp at h

theorem multiRead_some : ∀ q : List (List Nat), ∀ c : List Nat,
    ∀ q' : List (List Nat), multiRead q = (some c, q') →
      q.flatten = c ++ q'.flatten ∧ q'.length < q.length := by
  intro q
  induction q with
  | nil =>
    intro c q' h
    simp [multiRead] at h
  | cons c0 rest ih =>
    intro c q' h
    rw [multiRead] at h
    by_cases hc : c0.isEmpty
    · rw [if_pos hc] at h
      have hc' : c0 = [] := by
        cases c0
        · rfl
        · simp [List.isEmpty] at hc
      obtain ⟨h1, h2⟩ := ih c q' h
      exact ⟨by simp [hc', h1], by simp; omega⟩
    · rw [if_neg hc] at h
      have h1 : some c0 = some c := congrArg Prod.fst h
      have h2 : rest = q' := congrArg Prod.snd h
      injection h1 with h1
      subst h1
      subst h2
      exact ⟨rfl, by simp⟩

theorem find_gz_eq : ∀ dir : List Archive,
    (dir.map Archive.ts).Nodup → (∀ b ∈ dir, b.gz = true) →
    ∀ a : Archive, a ∈ dir →
      dir.find? (fun b => b.gz && b.ts == a.ts) = some a := by
  intro dir
  induction dir with
  | nil => intro _ _ a ha; simp at ha
  | cons b rest ih =>
    intro hnd hgz a ha
    rcases List.mem_cons.mp ha with rfl | hmem
    · rw [List.find?_cons_of_pos]
      simp [hgz a (by simp)]
    · have hnd' : (b.ts :: rest.map Archive.ts).Nodup := by simpa using hnd
      rcases List.nodup_cons.mp hnd' with ⟨hnotin, hrest⟩
      have hne : b.ts ≠ a.ts := by
        intro heq
        exact hnotin (heq ▸ List.mem_map_of_mem Archive.ts hmem)
      rw [List.find?_cons_of_neg]
      · exact ih hrest (fun x hx => hgz x (List.mem_cons_of_mem b hx)) a hmem
      · simp [hne]

theorem payloads_resolve (gzipFn gunzipFn : List Nat → List Nat)
    (hcodec : ∀ s, gunzipFn (gzipFn s) = s) (dir : List Archive)
    (hnd : (dir.map Archive.ts).Nodup) (hgzAll : ∀ b ∈ dir, b.gz = true) :
    ∀ l : List Archive, (∀ a ∈ l, a ∈ dir) →
      (l.map Archive.ts).filterMap
        (fun ts => (dir.find? (fun b => b.gz && b.ts == ts)).map
          (fun b => gunzipFn (b.diskBytes gzipFn)))
      = l.map Archive.payload := by
  intro l
  induction l with
  | nil => intro _; rfl
  | cons a t ihl =>
    intro hsub
    have hadir : a ∈ dir := hsub a (by simp)
    have hbytes : gunzipFn (a.diskBytes gzipFn) = a.payload := by
      rw [Archive.diskBytes, if_pos (hgzAll a hadir), hcodec]
    simp [List.filterMap_cons, find_gz_eq dir hnd hgzAll a hadir, hbytes,
      ihl (fun x hx => hsub x (List.mem_cons_of_mem a hx))]

/-- A scan over fully-compressed archives that the reader has already
consumed (`latestTs` at or above every timestamp) finds no new work. -/
theorem scanAbs_stale (lookback : Nat) (dir : List Archive) (st : MusterSt)
    (hgzAll : ∀ a ∈ dir, a.gz = true)
    (hle : ∀ a ∈ dir, a.ts ≤ st.latestTs) :
    scanAbs lookback dir st = ({ st with unreadyTs := BIG_TIMESTAMP }, []) := by
  have hraw : dir.filter (fun a => !a.gz) = [] := by
    rw [List.filter_eq_nil_iff]
    intro a ha
    simp [hgzAll a ha]
  have hpot : ((dir.filter (fun a => a.gz)).map Archive.ts).filter
      (fun ts => decide (ts > st.latestTs)) = [] := by
    rw [List.filter_eq_nil_iff]
    intro ts hts
    obtain ⟨a, ha, rfl⟩ := List.mem_map.mp hts
    have := hle a (List.mem_of_mem_filter ha)
    simp
    omega
  rw [scanAbs]
  simp only [hraw, hpot, List.filter_nil, List.foldl_nil]
  simp [sortDesc, headOrD]

/-- Loading archives from an already-consumed directory changes nothing
but the unready ceiling. -/
theorem loadAbs_stale (gzipFn gunzipFn : List Nat → List Nat)
    (lookback : Nat) (dir : List Archive) (st : MusterSt)
    (hgzAll : ∀ a ∈ dir, a.gz = true)
    (hle : ∀ a ∈ dir, a.ts ≤ st.latestTs) :
    loadAbs gzipFn gunzipFn lookback dir st
      = { st with unreadyTs := BIG_TIMESTAMP } := by
  rw [loadAbs, scanAbs_stale lookback dir st hgzAll hle]
  simp

/-- Reading once all archives are consumed: the current file is served
whole, then `io.EOF`. -/
theorem musterReadAll_current (gzipFn gunzipFn : List Nat → List Nat)
    (lookback : Nat) (dir : List Archive) (cur : List Nat) (st : MusterSt)
    (f : Nat) (hchain : st.chain = none) (hopen : st.lastOpenFile = none)
    (hgzAll : ∀ a ∈ dir, a.gz = true)
    (hle : ∀ a ∈ dir, a.ts ≤ st.latestTs) :
    musterReadAll gzipFn gunzipFn lookback dir (some cur) (f + 2) st
      = (cur, true) := by
  have hload := loadAbs_stale gzipFn gunzipFn lookback dir st hgzAll hle
  have hbig : ¬BIG_TIMESTAMP < BIG_TIMESTAMP := by omega
  by_cases hcur : cur.isEmpty
  · have hcur' : cur = [] := by
      cases cur
      · rfl
      · simp [List.isEmpty] at hcur
    have hcall : readCall gzipFn gunzipFn lookback dir (some cur) (f + 1 + 1) st
        = Prod.mk
            { st with unreadyTs := BIG_TIMESTAMP, lastOpenFile := some ⟨[], true⟩ }
            ReadRes.eof := by
      rw [readCall]
      simp only [hopen, hchain, Option.isNone_none, if_pos rfl, hload]
      simp [hbig, hchain, hcur]
    rw [show f + 2 = f + 1 + 1 from rfl, musterReadAll, hcall]
    simp [hcur']
  · have hcall : readCall gzipFn gunzipFn lookback dir (some cur) (f + 1 + 1) st
        = Prod.mk
            { st with unreadyTs := BIG_TIMESTAMP, lastOpenFile := some ⟨[], false⟩ }
            (ReadRes.bytes cur) := by
      rw [readCall]
      simp only [hopen, hchain, Option.isNone_none, if_pos rfl, hload]
      simp [hbig, hchain, hcur]
    have hcall2 : readCall gzipFn gunzipFn lookback dir (some cur) (f + 1)
        { st with unreadyTs := BIG_TIMESTAMP, lastOpenFile := some ⟨[], false⟩ }
        = Prod.mk
            { st with unreadyTs := BIG_TIMESTAMP, lastOpenFile := some ⟨[], true⟩ }
            ReadRes.eof := by
      rw [readCall]
      simp
    rw [show f + 2 = f + 1 + 1 from rfl, musterReadAll, hcall]
    simp [musterReadAll, hcall2]

/-- Draining an installed archive chain yields its concatenation, then
the current file, then a clean EOF. -/
theorem drain_chain (gzipFn gunzipFn : List Nat → List Nat) (lookback : Nat)
    (dir : List Archive) (cur : List Nat)
    (hgzAll : ∀ a ∈ dir, a.gz = true) :
    ∀ n : Nat, ∀ q : List (List Nat), ∀ st : MusterSt, ∀ fuel : Nat,
      q.length ≤ n → st.chain = some q → st.lastOpenFile = none →
      (∀ a ∈ dir, a.ts ≤ st.latestTs) → q.length + 3 ≤ fuel →
      musterReadAll gzipFn gunzipFn lookback dir (some cur) fuel st
        = (q.flatten ++ cur, true) := by
  intro n
  induction n with
  | zero =>
    intro q st fuel hqn hchain hopen hle hfuel
    have hq : q = [] := by
      cases q
      · rfl
      · simp at hqn
    subst hq
    obtain ⟨f, rfl⟩ : ∃ f, fuel = f + 3 := ⟨fuel - 3, by omega⟩
    have hcall : readCall gzipFn gunzipFn lookback dir (some cur) (f + 2 + 1) st
        = Prod.mk { st with chain := none } (ReadRes.bytes []) := by
      rw [readCall]
      simp [hopen, hchain, multiRead]
    rw [show f + 3 = f + 2 + 1 from rfl, musterReadAll, hcall]
    have hrest := musterReadAll_current gzipFn gunzipFn lookback dir cur
      { st with chain := none } f rfl hopen hgzAll hle
    simp [hrest]
  | succ n ih =>
    intro q st fuel hqn hchain hopen hle hfuel
    obtain ⟨f, rfl⟩ : ∃ f, fuel = f + 1 := ⟨fuel - 1, by omega⟩
    have hcall : readCall gzipFn gunzipFn lookback dir (some cur) (f + 1) st
        = match multiRead q with
          | (some c, q2) => Prod.mk { st with chain := some q2 } (ReadRes.bytes c)
          | (none, _) => Prod.mk { st with chain := none } (ReadRes.bytes []) := by
      rw [readCall]
      simp [hopen, hchain]
    rcases hm : multiRead q with ⟨oc, q'⟩
    rw [hm] at hcall
    cases oc with
    | none =>
      have hflat := multiRead_none q q' hm
      simp only [] at hcall
      rw [musterReadAll, hcall]
      obtain ⟨f2, rfl⟩ : ∃ f2, f = f2 + 2 := ⟨f - 2, by omega⟩
      have hrest := musterReadAll_current gzipFn gunzipFn lookback dir cur
        { st with chain := none } f2 rfl hopen hgzAll hle
      simp [hrest, hflat]
    | some c =>
      obtain ⟨hflat, hlt⟩ := multiRead_some q c q' hm
      simp only [] at hcall
      rw [musterReadAll, hcall]
      have hrec := ih q' { st with chain := some q' } f (by omega) rfl hopen
        hle (by omega)
      simp [hrec, hflat]

/-- A first scan over a fully-compressed directory of fresh timestamps
selects them all, newest first. -/
theorem scanAbs_all (lookback : Nat) (dir : List Archive) (st : MusterSt)
    (hgzAll : ∀ a ∈ dir, a.gz = true)
    (hnd : (dir.map Archive.ts).Nodup)
    (hgt : ∀ a ∈ dir, st.latestTs < a.ts)
    (hltBig : ∀ a ∈ dir, a.ts < BIG_TIMESTAMP)
    (hlen : dir.length ≤ lookback) :
    scanAbs lookback dir st
      = Prod.mk
          { st with unreadyTs := BIG_TIMESTAMP, latestTs := headOrD st.latestTs ((sortDesc Archive.ts dir).map Archive.ts) }
          ((sortDesc Archive.ts dir).map Archive.ts) := by
  have hraw : dir.filter (fun a => !a.gz) = [] := by
    rw [List.filter_eq_nil_iff]
    intro a ha
    simp [hgzAll a ha]
  have hgzfull : dir.filter (fun a => a.gz) = dir := by
    rw [List.filter_eq_self]
    intro a ha
    exact hgzAll a ha
  have hpot : (dir.map Archive.ts).filter (fun ts => decide (ts > st.latestTs))
      = dir.map Archive.ts := by
    rw [List.filter_eq_self]
    intro ts hts
    obtain ⟨a, ha, rfl⟩ := List.mem_map.mp hts
    simpa using hgt a ha
  have hready : (dir.map Archive.ts).filter
      (fun ts => decide (ts < BIG_TIMESTAMP)) = dir.map Archive.ts := by
    rw [List.filter_eq_self]
    intro ts hts
    obtain ⟨a, ha, rfl⟩ := List.mem_map.mp hts
    simpa using hltBig a ha
  have hsort : sortDesc id (dir.map Archive.ts)
      = (sortDesc Archive.ts dir).map Archive.ts := by
    refine sortDesc_eq_of_perm id ?_ ?_ ?_
    · exact (sortDesc_perm Archive.ts dir).symm.map Archive.ts
    · rw [DescSorted, List.pairwise_map]
      exact sortDesc_sorted Archive.ts dir
    · rw [List.map_id]
      exact ((sortDesc_perm Archive.ts dir).map Archive.ts).nodup_iff.mpr hnd
  have htake : ((sortDesc Archive.ts dir).map Archive.ts).length ≤ lookback := by
    rw [List.length_map, (sortDesc_perm Archive.ts dir).length_eq]
    exact hlen
  rw [scanAbs]
  simp only [hraw, hgzfull, List.foldl_nil, hpot, hready, hsort,
    List.take_of_length_le htake]

/-- The first `loadArchives` over a closed directory installs the full
oldest-first chain of decompressed payloads and remembers the newest
timestamp. -/
theorem loadAbs_fresh (gzipFn gunzipFn : List Nat → List Nat)
    (lookback : Nat) (dir : List Archive) (st : MusterSt)
    (hcodec : ∀ s, gunzipFn (gzipFn s) = s)
    (hgzAll : ∀ a ∈ dir, a.gz = true)
    (hnd : (dir.map Archive.ts).Nodup)
    (hgt : ∀ a ∈ dir, st.latestTs < a.ts)
    (hltBig : ∀ a ∈ dir, a.ts < BIG_TIMESTAMP)
    (hlen : dir.length ≤ lookback) (hne : dir ≠ []) :
    ∃ t0 : Int,
      loadAbs gzipFn gunzipFn lookback dir st
        = { st with unreadyTs := BIG_TIMESTAMP, latestTs := t0, chain := some (((sortDesc Archive.ts dir).reverse).map Archive.payload) }
      ∧ (∀ a ∈ dir, a.ts ≤ t0) := by
  have hmne : sortDesc Archive.ts dir ≠ [] := by
    intro h
    have := (sortDesc_perm Archive.ts dir).length_eq
    rw [h] at this
    cases dir
    · exact hne rfl
    · simp at this
  obtain ⟨a0, m0, hm0⟩ : ∃ a0 m0, sortDesc Archive.ts dir = a0 :: m0 := by
    cases hs : sortDesc Archive.ts dir
    · exact absurd hs hmne
    · exact ⟨_, _, rfl⟩
  have hpay : (((sortDesc Archive.ts dir).map Archive.ts).reverse).filterMap
      (fun ts => (dir.find? (fun b => b.gz && b.ts == ts)).map
        (fun b => gunzipFn (b.diskBytes gzipFn)))
      = ((sortDesc Archive.ts dir).reverse).map Archive.payload := by
    have : ((sortDesc Archive.ts dir).map Archive.ts).reverse
        = ((sortDesc Archive.ts dir).reverse).map Archive.ts := by
      simp
    rw [this]
    exact payloads_resolve gzipFn gunzipFn hcodec dir hnd hgzAll
      ((sortDesc Archive.ts dir).reverse)
      (fun a ha => (sortDesc_perm Archive.ts dir).mem_iff.mp
        (List.mem_reverse.mp ha))
  have hpayne : (((sortDesc Archive.ts dir).reverse).map Archive.payload)
      ≠ [] := by
    rw [hm0]
    simp
  refine ⟨a0.ts, ?_, ?_⟩
  · rw [loadAbs, scanAbs_all lookback dir st hgzAll hnd hgt hltBig hlen]
    simp only []
    rw [hpay]
    have hfalse : (((sortDesc Archive.ts dir).reverse).map Archive.payload).isEmpty
        = false := by
      rw [hm0]
      simp
    rw [hfalse]
    rw [hm0]
    simp [headOrD]
  · intro a ha
    have ham : a ∈ a0 :: m0 :=
      hm0 ▸ (sortDesc_perm Archive.ts dir).mem_iff.mpr ha
    have hsorted : DescSorted Archive.ts (a0 :: m0) :=
      hm0 ▸ sortDesc_sorted Archive.ts dir
    rcases List.mem_cons.mp ham with rfl | hmem
    · omega
    · exact (List.pairwise_cons.mp hsorted).1 a hmem

/-- The replay over a closed directory (all archives compressed,
distinct in-band timestamps, within the lookback) and a present current
file yields exactly the ascending concatenation of archive payloads
followed by the current file, ending in a clean EOF. -/
theorem muster_replays (gzipFn gunzipFn : List Nat → List Nat)
    (lookback : Nat) (dir : List Archive) (cur : List Nat)
    (hcodec : ∀ s, gunzipFn (gzipFn s) = s)
    (hgzAll : ∀ a ∈ dir, a.gz = true)
    (hnd : (dir.map Archive.ts).Nodup)
    (hband : ∀ a ∈ dir, 1000000000 ≤ a.ts ∧ a.ts < 10000000000)
    (hlen : dir.length ≤ lookback) :
    musterReadAll gzipFn gunzipFn lookback dir (some cur)
        (dir.length + 3) initMuster
      = (histBytes dir ++ cur, true) := by
  by_cases hne : dir = []
  · subst hne
    have := musterReadAll_current gzipFn gunzipFn lookback [] cur initMuster 1
      rfl rfl (by intro a ha; simp at ha) (by intro a ha; simp at ha)
    simpa [histBytes, ascList, sortDesc] using this
  · have hgt : ∀ a ∈ dir, initMuster.latestTs < a.ts := by
      intro a ha
      have := (hband a ha).1
      simp only [initMuster]
      omega
    have hltBig : ∀ a ∈ dir, a.ts < BIG_TIMESTAMP := by
      intro a ha
      have := (hband a ha).2
      simp only [BIG_TIMESTAMP]
      omega
    obtain ⟨t0, hload, ht0⟩ := loadAbs_fresh gzipFn gunzipFn lookback dir
      initMuster hcodec hgzAll hnd hgt hltBig hlen hne
    set P := ((sortDesc Archive.ts dir).reverse).map Archive.payload with hP
    have hchainL : (loadAbs gzipFn gunzipFn lookback dir initMuster).chain
        = some P := by
      rw [hload]
    have hopenL : (loadAbs gzipFn gunzipFn lookback dir initMuster).lastOpenFile
        = none := by
      rw [hload]
      rfl
    have hlatL : ∀ a ∈ dir,
        a.ts ≤ (loadAbs gzipFn gunzipFn lookback dir initMuster).latestTs := by
      rw [hload]
      exact ht0
    obtain ⟨f, hf⟩ : ∃ f, dir.length + 3 = f + 1 := ⟨dir.length + 2, rfl⟩
    have hstep : readCall gzipFn gunzipFn lookback dir (some cur) (f + 1)
          initMuster
        = readCall gzipFn gunzipFn lookback dir (some cur) (f + 1)
          (loadAbs gzipFn gunzipFn lookback dir initMuster) := by
      conv_lhs => rw [readCall]
      conv_rhs => rw [readCall]
      simp [show initMuster.lastOpenFile = none from rfl,
        show initMuster.chain = none from rfl, hopenL, hchainL]
    have hcongr : musterReadAll gzipFn gunzipFn lookback dir (some cur)
          (f + 1) initMuster
        = musterReadAll gzipFn gunzipFn lookback dir (some cur) (f + 1)
          (loadAbs gzipFn gunzipFn lookback dir initMuster) := by
      rw [musterReadAll, musterReadAll, hstep]
    have hPlen : P.length = dir.length := by
      rw [hP]
      simp [(sortDesc_perm Archive.ts dir).length_eq]
    have hdrain := drain_chain gzipFn gunzipFn lookback dir cur hgzAll
      P.length P (loadAbs gzipFn gunzipFn lookback dir initMuster) (f + 1)
      (le_refl _) hchainL hopenL hlatL (by omega)
    rw [hf, hcongr, hdrain]
    have : P.flatten = histBytes dir := by
      rw [histBytes, ascList, hP]
    rw [this]

/-- Claim C1 (amended): for any finite trace of `Write` calls (no
formatter, no filesystem errors, modelled gzip round-trip) interleaved
with mill passes, where every rotation stamps a fresh wall-clock second
beyond all existing archives and all write seconds are ten digits wide,
and provided at least one `Write` occurred (else no current file exists
and the reader errors) and the number of retained archives does not
exceed the reader's lookback cap (else the oldest are skipped, see C9):
after `Close`, the byte stream written equals an evicted oldest-first
prefix, then the archives' payloads in ascending timestamp order, then
the current file; and `Muster.Read` driven to EOF yields exactly that
archive concatenation followed by the current file. -/
theorem claim_C1_conservation_and_replay
    (gzipFn gunzipFn : List Nat → List Nat) (cfg : LogConfig)
    (trace : List Ev) (lookback : Nat)
    (hcodec : ∀ s, gunzipFn (gzipFn s) = s)
    (hfmt : cfg.fmtFn = none)
    (hfresh : freshTrace gzipFn cfg initState trace = true)
    (hband : bandTrace trace = true)
    (hwrite : hasWriteEv trace = true)
    (hcap : (closeLogger gzipFn cfg
        (runTrace gzipFn cfg initState trace)).archives.length ≤ lookback) :
    ∃ evicted cur : List Nat,
      (closeLogger gzipFn cfg (runTrace gzipFn cfg initState trace)).current
          = some cur
      ∧ writtenBytes trace
          = evicted
            ++ histBytes (closeLogger gzipFn cfg
                (runTrace gzipFn cfg initState trace)).archives
            ++ cur
      ∧ musterReadAll gzipFn gunzipFn lookback
            (closeLogger gzipFn cfg
              (runTrace gzipFn cfg initState trace)).archives
            (some cur)
            ((closeLogger gzipFn cfg
              (runTrace gzipFn cfg initState trace)).archives.length + 3)
            initMuster
          = (histBytes (closeLogger gzipFn cfg
              (runTrace gzipFn cfg initState trace)).archives ++ cur, true) := by
  have hrun : WriterInv (writtenBytes trace)
      (runTrace gzipFn cfg initState trace) := by
    have := writerInv_run gzipFn cfg hfmt trace [] initState writerInv_init
      hfresh hband
    simpa using this
  obtain ⟨invF, hgzF, hcurF⟩ := writerInv_close gzipFn cfg hrun
  have hsome : ((closeLogger gzipFn cfg
      (runTrace gzipFn cfg initState trace)).current).isSome = true := by
    rw [hcurF]
    exact runTrace_write_some gzipFn cfg trace initState hwrite
  obtain ⟨cur, hc⟩ := Option.isSome_iff_exists.mp hsome
  obtain ⟨evicted, hcons⟩ := invF.conserve
  refine ⟨evicted, cur, hc, ?_, ?_⟩
  · rw [hcons, hc]
    rfl
  · exact muster_replays gzipFn gunzipFn lookback _ cur hcodec hgzF
      invF.nodupTs invF.band hcap

/-- Claim C1 fails as stated at the empty trace: zero `Write` calls
(total `B = 0` bytes, vacuously no two rotations in one second) leave no
current file, so `Muster.Read` surfaces a wrapped not-found error and
never reaches EOF — the reader does not yield the (empty) concatenation
followed by EOF. -/
theorem claim_C1_counterexample :
    writtenBytes ([] : List Ev) = []
    ∧ (closeLogger id ⟨1, 2, 1048576, none⟩
        (runTrace id ⟨1, 2, 1048576, none⟩ initState [])).current = none
    ∧ musterReadAll id id 768
        (closeLogger id ⟨1, 2, 1048576, none⟩
          (runTrace id ⟨1, 2, 1048576, none⟩ initState [])).archives
        (closeLogger id ⟨1, 2, 1048576, none⟩
          (runTrace id ⟨1, 2, 1048576, none⟩ initState [])).current
        10 initMuster
      = ([], false) := by
  refine ⟨rfl, rfl, ?_⟩
  decide

/-- Witness for `claim_C1_conservation_and_replay`: a single 1-byte
write under the real mebibyte factor; no rotation, no archives, the
reader replays the current file alone. -/
theorem claim_C1_witness :
    ∃ evicted cur : List Nat,
      (closeLogger id ⟨1, 2, 1048576, none⟩
          (runTrace id ⟨1, 2, 1048576, none⟩ initState
            [Ev.write 1500000000 [42]])).current = some cur
      ∧ writtenBytes [Ev.write 1500000000 [42]]
          = evicted
            ++ histBytes (closeLogger id ⟨1, 2, 1048576, none⟩
                (runTrace id ⟨1, 2, 1048576, none⟩ initState
                  [Ev.write 1500000000 [42]])).archives
            ++ cur
      ∧ musterReadAll id id 768
            (closeLogger id ⟨1, 2, 1048576, none⟩
              (runTrace id ⟨1, 2, 1048576, none⟩ initState
                [Ev.write 1500000000 [42]])).archives
            (some cur)
            ((closeLogger id ⟨1, 2, 1048576, none⟩
              (runTrace id ⟨1, 2, 1048576, none⟩ initState
                [Ev.write 1500000000 [42]])).archives.length + 3)
            initMuster
          = (histBytes (closeLogger id ⟨1, 2, 1048576, none⟩
              (runTrace id ⟨1, 2, 1048576, none⟩ initState
                [Ev.write 1500000000 [42]])).archives ++ cur, true) :=
  claim_C1_conservation_and_replay id id ⟨1, 2, 1048576, none⟩
    [Ev.write 1500000000 [42]] 768 (fun _ => rfl) rfl (by decide) (by decide)
    rfl (by decide)

end Tumble
